import Mathlib

/-!
A verification development for the mpiperfviewer core (`mpiperfcli`):
a shallow embedding of `filters.py` (the filter-expression grammar and its
serialization) and `parser.py` (rank-file data model, locality resolution,
matrix aggregation, per-rank size tables, and the rank-file cache), together
with theorems settling the specification claims against this embedding.

Machine integers: the numpy `uint64` matrices are modelled as `Nat` with an
explicit `% 2^64` on every accumulating write.  Python `dict`s appear as
association lists (first-match lookup), Python `list`s as `List`, Python
strings as `List Char` (converted at the boundary with `String.toList`).
-/

/-! ## Decimal numerals: Python `str(int)` and `int(str)` -/

/-- The character for decimal digit `d` (`0 ≤ d < 10`). -/
def digitChar (d : Nat) : Char := Char.ofNat (48 + d)

/-- Big-endian decimal digits of a positive number; `fuel`-structured so that
the kernel can evaluate it (`fuel ≥ n` suffices). -/
def natDigitsAux : Nat → Nat → List Char
  | 0, _ => []
  | _ + 1, 0 => []
  | fuel + 1, n + 1 => natDigitsAux fuel ((n + 1) / 10) ++ [digitChar ((n + 1) % 10)]

/-- Python `str` of a natural number. -/
def pyStrNat (n : Nat) : List Char := if n = 0 then ['0'] else natDigitsAux n n

/-- Python `str` of an integer. -/
def pyStrInt : Int → List Char
  | .ofNat n => pyStrNat n
  | .negSucc m => '-' :: pyStrNat (m + 1)

/-- Numeric value of a digit character. -/
def digitVal (c : Char) : Nat := c.toNat - 48

/-- Value of a big-endian digit string. -/
def digitsToNat (cs : List Char) : Nat := cs.foldl (fun a c => 10 * a + digitVal c) 0

/-- Nonempty and all decimal digits. -/
def isDigits (cs : List Char) : Bool := !cs.isEmpty && cs.all (·.isDigit)

/-- Python `int(s)` on a trimmed string: an optional single sign followed by a
nonempty run of decimal digits (`none` models `ValueError`). -/
def pyInt : List Char → Option Int
  | [] => none
  | c :: rest =>
    if c = '+' then (if isDigits rest then some ((digitsToNat rest : Nat) : Int) else none)
    else if c = '-' then (if isDigits rest then some (-((digitsToNat rest : Nat) : Int)) else none)
    else if isDigits (c :: rest) then some ((digitsToNat (c :: rest) : Nat) : Int) else none

/-! ## Python `str.split` on a single-character separator, and its inverse -/

/-- Python `s.split(c)` for a one-character separator (no maxsplit). -/
def splitOnChar (c : Char) : List Char → List (List Char)
  | [] => [[]]
  | x :: xs =>
    let rest := splitOnChar c xs
    if x = c then [] :: rest
    else
      match rest with
      | [] => [[x]]
      | h :: t => (x :: h) :: t

/-- Python `c.join(pieces)` for a one-character separator. -/
def joinSep (c : Char) : List (List Char) → List Char
  | [] => []
  | [t] => t
  | t :: ts => t ++ c :: joinSep c ts

/-! ## The filter engine (`filters.py`) -/

/-- `RangeFilter{min?, max?, segment?}`; `None` bounds are open ends. -/
structure RangeFilter where
  min : Option Int
  max : Option Int
  segment : Option Nat
deriving DecidableEq

/-- `ExactFilter{n, segment?}`. -/
structure ExactFilter where
  n : Int
  segment : Option Nat
deriving DecidableEq

/-- `MultiRangeFilter{ranges, exact, text}`. -/
structure MultiRangeFilter where
  ranges : List RangeFilter
  exact : List ExactFilter
  text : List Char
deriving DecidableEq

/-- The regex group `(\+|\-)?(inf|\d+)`. -/
def isBoundGroup : List Char → Bool
  | [] => false
  | c :: rest =>
    if c = '+' then rest = ['i', 'n', 'f'] || isDigits rest
    else if c = '-' then rest = ['i', 'n', 'f'] || isDigits rest
    else (c :: rest) = ['i', 'n', 'f'] || isDigits (c :: rest)

/-- `re.match(r"^\[((?:\+|\-)?(?:inf|\d+));((?:\+|\-)?(?:inf|\d+))\]$", s)`:
the two captured groups, or `none` when the string does not match. -/
def pyRangeMatch : List Char → Option (List Char × List Char)
  | [] => none
  | c :: rest =>
    if c = '[' then
      if rest.getLast? = some ']' then
        match splitOnChar ';' rest.dropLast with
        | [g1, g2] => if isBoundGroup g1 && isBoundGroup g2 then some (g1, g2) else none
        | _ => none
      else none
    else none

/-- `RangeFilter.from_str(s, segment)`: `.ok none` when the regex does not
match, `.error` for an `inf` bound on the wrong side (`int()` failure). -/
def rangeFilterFromStr (s : List Char) (segment : Option Nat) :
    Except String (Option RangeFilter) :=
  match pyRangeMatch s with
  | none => .ok none
  | some (g1, g2) =>
    if g1 = ['-', 'i', 'n', 'f'] then
      if g2 = ['i', 'n', 'f'] || g2 = ['+', 'i', 'n', 'f'] then
        .ok (some ⟨none, none, segment⟩)
      else
        match pyInt g2 with
        | some mx => .ok (some ⟨none, some mx, segment⟩)
        | none => .error "Maximum of range is not an integer or positive infinity."
    else
      match pyInt g1 with
      | none => .error "Minimum of range is not an integer or negative infinity."
      | some mn =>
        if g2 = ['i', 'n', 'f'] || g2 = ['+', 'i', 'n', 'f'] then
          .ok (some ⟨some mn, none, segment⟩)
        else
          match pyInt g2 with
          | some mx => .ok (some ⟨some mn, some mx, segment⟩)
          | none => .error "Maximum of range is not an integer or positive infinity."

/-- `ExactFilter.from_str(s, segment)`. -/
def exactFilterFromStr (s : List Char) (segment : Option Nat) : Except String ExactFilter :=
  match pyInt s with
  | some n => .ok ⟨n, segment⟩
  | none => .error "is not a finite integer."

/-- The parsing loop of `MultiRangeFilter.__init__` over the enumerated
comma-separated segments.  Note: the source calls `RangeFilter.from_str(el)`
without passing the segment index, so ranges keep `segment = None`. -/
def multiRangeSegs (tolerant : Bool) :
    List (Nat × List Char) → List RangeFilter → List ExactFilter →
    Except String (List RangeFilter × List ExactFilter)
  | [], racc, eacc => .ok (racc, eacc)
  | (i, el) :: rest, racc, eacc =>
    match rangeFilterFromStr el none with
    | .ok (some rf) => multiRangeSegs tolerant rest (racc ++ [rf]) eacc
    | .ok none =>
      match exactFilterFromStr el (some i) with
      | .ok ef => multiRangeSegs tolerant rest racc (eacc ++ [ef])
      | .error e => if tolerant then multiRangeSegs tolerant rest racc eacc else .error e
    | .error e => if tolerant then multiRangeSegs tolerant rest racc eacc else .error e

/-- `MultiRangeFilter.__init__(text, tolerant)`. -/
def multiRangeFilterInit (text : Option (List Char)) (tolerant : Bool) :
    Except String MultiRangeFilter :=
  let t := text.getD []
  if t.isEmpty then .ok ⟨[], [], t⟩
  else
    match multiRangeSegs tolerant (splitOnChar ',' t).enum [] [] with
    | .ok (rs, es) => .ok ⟨rs, es, t⟩
    | .error e => .error e

/-- `RangeFilter.__str__`. -/
def rangeFilterStr (r : RangeFilter) : List Char :=
  '[' :: ((match r.min with | none => ['-', 'i', 'n', 'f'] | some n => pyStrInt n) ++
    ';' :: ((match r.max with | none => ['+', 'i', 'n', 'f'] | some n => pyStrInt n) ++ [']']))

/-- `ExactFilter.__str__`. -/
def exactFilterStr (e : ExactFilter) : List Char := pyStrInt e.n

/-- `MultiRangeFilter.__str__`: ranges first, then exacts, comma-joined. -/
def multiRangeFilterStr (f : MultiRangeFilter) : List Char :=
  joinSep ',' (f.ranges.map rangeFilterStr ++ f.exact.map exactFilterStr)

/-- `RangeFilter.remove_exact(n)`.  Mirrors the source exactly, including the
space the source writes in the left sub-range (`f"[{min_str}; {n - 1}]"`). -/
def removeExact (f : RangeFilter) (n : Int) : List Char :=
  let minStr := match f.min with | none => ['-', 'i', 'n', 'f'] | some m => pyStrInt m
  let maxStr := match f.max with | none => ['+', 'i', 'n', 'f'] | some m => pyStrInt m
  let below := match f.min with | some m => decide (n < m) | none => false
  let above := match f.max with | some m => decide (m < n) | none => false
  if below || above then '[' :: (minStr ++ ';' :: (maxStr ++ [']']))
  else
    let left :=
      if f.min = some n then []
      else if f.min = some (n - 1) then minStr
      else '[' :: (minStr ++ ';' :: ' ' :: (pyStrInt (n - 1) ++ [']']))
    let right :=
      if f.max = some n then []
      else if f.max = some (n + 1) then maxStr
      else '[' :: (pyStrInt (n + 1) ++ ';' :: (maxStr ++ [']']))
    if left.isEmpty then right
    else if right.isEmpty then left
    else left ++ ',' :: right

/-! ## Rank-file data model (`parser.py`) -/

/-- `2^64`, the modulus of the numpy `uint64` matrices. -/
def M64 : Nat := 18446744073709551616

/-- `LocalityType`. -/
inductive LocalityType where
  | core
  | socket
  | numa
  | node
deriving DecidableEq

/-- `RankLocality`: one locality claim (peer ids validated nonnegative by
`deserialize_peers`, hence `Nat`). -/
structure RankLocality where
  type : LocalityType
  peers : List Nat
deriving DecidableEq

/-- `CallsiteMessagesSizeEntry`: a size and the decoded tag→occurrences map. -/
structure CallsiteMessagesSizeEntry where
  size : Nat
  tags : List (Int × Nat)
deriving DecidableEq

/-- `CallsiteMessageData`. -/
structure CallsiteMessageData where
  callsite : Int
  msgs : List CallsiteMessagesSizeEntry
deriving DecidableEq

/-- `RankPeer`. -/
structure RankPeer where
  components : List String
  sent_count : List (String × Nat)
  sent_messages : List (String × List CallsiteMessageData)
deriving DecidableEq

/-- `RankGeneral`. -/
structure RankGeneral where
  own_rank : Nat
  num_procs : Nat
  wall_time : Nat
  hostname : String
  mpi_runtime : String
  localities : List RankLocality
deriving DecidableEq

/-- `RankFile`: general metadata plus the `peer.<id>` table in file order. -/
structure RankFile where
  general : RankGeneral
  peers : List (Nat × RankPeer)
deriving DecidableEq

/-- Python `dict` lookup on an association list (keys unique in a dict, so
first match suffices). -/
def lookupA {α β : Type} [DecidableEq α] : List (α × β) → α → Option β
  | [], _ => none
  | (k, v) :: rest, k' => if k = k' then some v else lookupA rest k'

/-! ## Python `sorted` (structural insertion sort, kernel-evaluable) -/

/-- Insert into a `le`-sorted list. -/
def insertSorted {α : Type} (le : α → α → Bool) (x : α) : List α → List α
  | [] => [x]
  | y :: ys => if le x y then x :: y :: ys else y :: insertSorted le x ys

/-- Python `sorted(l)` for the total preorder `le`. -/
def sortList {α : Type} (le : α → α → Bool) (l : List α) : List α :=
  l.foldr (insertSorted le) []

/-- Python's lexicographic `<=` on integer lists. -/
def pyListLe : List Nat → List Nat → Bool
  | [], _ => true
  | _ :: _, [] => false
  | a :: as, b :: bs => if a < b then true else if b < a then false else pyListLe as bs

/-! ## Locality resolution (`WorldData._parse_locality` / `_get_localities_from_rfs`) -/

/-- The exceptions locality resolution can raise. -/
inductive LocErr where
  | duplicateClaim (rank : Nat)
  | mismatch (rank other : Nat)
  | indexError
deriving DecidableEq

/-- `WorldData._parse_locality(rank, localities, type)`: the unique claim of
the given kind, `none` if absent, error if the kind occurs twice. -/
def parseLocality (rank : Nat) (ls : List RankLocality) (t : LocalityType) :
    Except LocErr (Option RankLocality) :=
  match ls.filter (fun l => decide (l.type = t)) with
  | [] => .ok none
  | [l] => .ok (some l)
  | _ => .error (.duplicateClaim rank)

/-- The inner verification loop of `_get_localities_from_rfs`: every rank in
the found claim's peer list must report back the same peer list (the source
passes the outer `rank` to `_parse_locality`, reproduced here), and gets
marked covered. -/
def verifyPeers (rls : List (List RankLocality)) (t : LocalityType) (rank : Nat)
    (fpeers : List Nat) : List Nat → (Nat → Bool) → Except LocErr (Nat → Bool)
  | [], covered => .ok covered
  | o :: rest, covered =>
    if o < rls.length then
      match parseLocality rank (rls.getD o []) t with
      | .error e => .error e
      | .ok none => .error (.mismatch rank o)
      | .ok (some cl) =>
        if cl.peers = fpeers then
          verifyPeers rls t rank fpeers rest (fun x => if x = o then true else covered x)
        else .error (.mismatch rank o)
    else .error .indexError

/-- The outer loop of `_get_localities_from_rfs` over ranks in order. -/
def glLoop (rls : List (List RankLocality)) (t : LocalityType) :
    List Nat → (Nat → Bool) → List (List Nat) → Except LocErr (Option (List (List Nat)))
  | [], _, acc => .ok (some (sortList pyListLe acc))
  | r :: rest, covered, acc =>
    if covered r then glLoop rls t rest covered acc
    else
      match parseLocality r (rls.getD r []) t with
      | .error e => .error e
      | .ok none => .ok none
      | .ok (some found) =>
        match verifyPeers rls t r found.peers found.peers covered with
        | .error e => .error e
        | .ok covered2 =>
          glLoop rls t rest (fun x => if x = r then true else covered2 x) (acc ++ [found.peers])

/-- `WorldData._get_localities_from_rfs(rank_localities, type)`. -/
def getLocalitiesFromRfs (rls : List (List RankLocality)) (t : LocalityType) :
    Except LocErr (Option (List (List Nat))) :=
  glLoop rls t (List.range rls.length) (fun _ => false) []

/-- The peer list of rank `r`'s unique claim of kind `t`, when it exists. -/
def claimPeersOf (rls : List (List RankLocality)) (t : LocalityType) (r : Nat) :
    Option (List Nat) :=
  match parseLocality r (rls.getD r []) t with
  | .ok (some c) => some c.peers
  | _ => none

/-! ## `GroupedMatrices` and `regroup` -/

/-- `GroupedMatrices`: dense `uint64` matrices as functions with wraparound
writes (`% 2^64`). -/
structure GroupedMatrices where
  msgs_sent : Nat → Nat → Nat
  total_sent : Nat → Nat → Nat

/-- The accumulation `gm.X[A, B] += self.X[sender, recipient]` over all
senders in group `A` and recipients in group `B` (each `+=` wraps). -/
def regroupCell (m : Nat → Nat → Nat) (ss rs : List Nat) : Nat :=
  ss.foldl (fun acc s => rs.foldl (fun a r => (a + m s r) % M64) acc) 0

/-- `GroupedMatrices.regroup(localities)` for a resolved grouping: cell
`(A, B)` is accumulated from the rank-level cells of `localities[A] ×
localities[B]` (cells are written independently, so the nested loop is
expressed per cell). -/
def GroupedMatrices.regroup (gm : GroupedMatrices) (localities : List (List Nat)) :
    GroupedMatrices where
  msgs_sent := fun a b => regroupCell gm.msgs_sent (localities.getD a []) (localities.getD b [])
  total_sent := fun a b => regroupCell gm.total_sent (localities.getD a []) (localities.getD b [])

/-- `regroup(None) = None`. -/
def regroupOpt (gm : GroupedMatrices) : Option (List (List Nat)) → Option GroupedMatrices
  | none => none
  | some ls => some (gm.regroup ls)

/-! ## Aggregation engine (`WorldData.parse_ranks`) -/

/-- The exceptions aggregation can raise. -/
inductive WErr where
  | ownRankAssert (rank : Nat)
  | invalidOwnRank (sender : Nat)
  | invalidPeer (sender recipient : Nat)
  | sentCountKeyError (comp : String)
  | localityErr (e : LocErr)
deriving DecidableEq

/-- Pass-1 output: max wall time, discovered component names, raw locality
claim lists per rank. -/
structure Pass1Out where
  wall_time : Nat
  components : List String
  locs : List (List RankLocality)

/-- `set.add`: append if absent (insertion-ordered model of the Python set of
component names). -/
def insertNew (l : List String) (s : String) : List String := if s ∈ l then l else l ++ [s]

/-- `component_set.update(peer.sent_count.keys()); component_set.update(peer.sent_messages.keys())`. -/
def addComponents (acc : List String) (peer : RankPeer) : List String :=
  (peer.sent_messages.map Prod.fst).foldl insertNew
    ((peer.sent_count.map Prod.fst).foldl insertNew acc)

/-- Pass 1: per rank, take the max wall time, record the locality claims,
union the component names, and assert `own_rank == rank`. -/
def pass1Loop (fs : Nat → RankFile) :
    List Nat → Nat → List String → List (List RankLocality) → Except WErr Pass1Out
  | [], wt, comps, locs => .ok ⟨wt, comps, locs⟩
  | r :: rest, wt, comps, locs =>
    if (fs r).general.own_rank = r then
      pass1Loop fs rest (max wt (fs r).general.wall_time)
        ((fs r).peers.foldl (fun a p => addComponents a p.2) comps)
        (locs ++ [(fs r).general.localities])
    else .error (.ownRankAssert r)

/-- One component's accumulated state (`ComponentData` minus the lazy size/tag
caches): the `by_rank` matrices plus the running totals. -/
structure CompData where
  msgs_sent : Nat → Nat → Nat
  total_sent : Nat → Nat → Nat
  total_bytes_sent : Nat
  total_msgs_sent : Nat

/-- Zero-filled component state. -/
def CompData.empty : CompData := ⟨fun _ _ => 0, fun _ _ => 0, 0, 0⟩

/-- Point update of a dense matrix. -/
def upd2 (m : Nat → Nat → Nat) (i j v : Nat) : Nat → Nat → Nat :=
  fun a b => if a = i ∧ b = j then v else m a b

/-- `for msgs_sent in msg.tags.values(): total_bytes_sent += msgs_sent*size;
by_rank.total_sent[sender, recipient] += msgs_sent*size` (the matrix write
wraps at `2^64`; the Python-int total does not). -/
def accTagsCD (s r size : Nat) (cd : CompData) (tags : List (Int × Nat)) : CompData :=
  tags.foldl
    (fun cd t =>
      { cd with
        total_bytes_sent := cd.total_bytes_sent + t.2 * size
        total_sent := upd2 cd.total_sent s r ((cd.total_sent s r + t.2 * size) % M64) })
    cd

/-- The loop over one callsite's `msgs`. -/
def accMsgsCD (s r : Nat) (cd : CompData) (msgs : List CallsiteMessagesSizeEntry) : CompData :=
  msgs.foldl (fun cd m => accTagsCD s r m.size cd m.tags) cd

/-- The loop over `peer.sent_messages.get(component, [])`. -/
def accCallsitesCD (s r : Nat) (cd : CompData) (cs : List CallsiteMessageData) : CompData :=
  cs.foldl (fun cd c => accMsgsCD s r cd c.msgs) cd

/-- Per `(recipient, peer)` entry: validate `recipient < n`, accumulate the
bytes, then `total_msgs_sent += peer.sent_count[comp]` and
`msgs_sent[sender, recipient] = peer.sent_count[comp]` (a `KeyError` when the
component is missing from `sent_count`). -/
def processPeer (n : Nat) (comp : String) (sender : Nat) (cd : CompData)
    (entry : Nat × RankPeer) : Except WErr CompData :=
  if entry.1 < n then
    let cd1 := accCallsitesCD sender entry.1 cd ((lookupA entry.2.sent_messages comp).getD [])
    match lookupA entry.2.sent_count comp with
    | some cnt =>
      .ok { cd1 with
              total_msgs_sent := cd1.total_msgs_sent + cnt
              msgs_sent := upd2 cd1.msgs_sent sender entry.1 (cnt % M64) }
    | none => .error (.sentCountKeyError comp)
  else .error (.invalidPeer sender entry.1)

/-- One rank file's contribution to one component: validate the sender, then
fold over its peer entries. -/
def processComp (n : Nat) (rf : RankFile) (comp : String) (cd : CompData) :
    Except WErr CompData :=
  if rf.general.own_rank < n then
    rf.peers.foldlM (processPeer n comp rf.general.own_rank) cd
  else .error (.invalidOwnRank rf.general.own_rank)

/-- One rank file's pass-2 step over all discovered components. -/
def pass2Rank (n : Nat) (comps : List String) (rf : RankFile) (data : String → CompData) :
    Except WErr (String → CompData) :=
  comps.foldlM
    (fun d comp =>
      match processComp n rf comp (d comp) with
      | .ok cd => .ok (fun c => if c = comp then cd else d c)
      | .error e => .error e)
    data

/-- Pass 2 over all ranks in order, starting from zero-filled matrices. -/
def pass2 (fs : Nat → RankFile) (n : Nat) (comps : List String) :
    Except WErr (String → CompData) :=
  (List.range n).foldlM (fun d r => pass2Rank n comps (fs r) d) (fun _ => CompData.empty)

/-- The aggregated world: discovered components, per-component data, and the
four resolved locality groupings. -/
structure World where
  components : List String
  data : String → CompData
  wall_time : Nat
  nodeLoc : Option (List (List Nat))
  numaLoc : Option (List (List Nat))
  socketLoc : Option (List (List Nat))
  coreLoc : Option (List (List Nat))

/-- `WorldData.parse_ranks()`: pass 1, locality resolution for the four kinds
(node, numa, socket, core — in source order), then pass 2. -/
def parseRanks (fs : Nat → RankFile) (n : Nat) : Except WErr World :=
  match pass1Loop fs (List.range n) 0 [] [] with
  | .error e => .error e
  | .ok p1 =>
    match getLocalitiesFromRfs p1.locs .node with
    | .error e => .error (.localityErr e)
    | .ok nodeL =>
      match getLocalitiesFromRfs p1.locs .numa with
      | .error e => .error (.localityErr e)
      | .ok numaL =>
        match getLocalitiesFromRfs p1.locs .socket with
        | .error e => .error (.localityErr e)
        | .ok socketL =>
          match getLocalitiesFromRfs p1.locs .core with
          | .error e => .error (.localityErr e)
          | .ok coreL =>
            match pass2 fs n p1.components with
            | .error e => .error e
            | .ok data => .ok ⟨p1.components, data, p1.wall_time, nodeL, numaL, socketL, coreL⟩

/-- `WorldData.__init__`: the process count is read from rank 0's file in
`parse_metadata`, then `parse_ranks` runs. -/
def worldFromFs (fs : Nat → RankFile) : Except WErr World :=
  parseRanks fs (fs 0).general.num_procs

/-- `Σ size × occurrences` over one peer record's callsite/size/tag entries
for one component (the mathematical sum, no wraparound). -/
def peerBytes (peer : RankPeer) (comp : String) : Nat :=
  (((lookupA peer.sent_messages comp).getD []).map (fun cs =>
    (cs.msgs.map (fun m => (m.tags.map (fun t => t.2 * m.size)).sum)).sum)).sum

/-- The bytes rank-file `rf` sends to recipient `r` within component `comp`:
`Σ size × occurrences` over the matching peer entries' callsite/size/tag
entries. -/
def bytesTo (rf : RankFile) (comp : String) (r : Nat) : Nat :=
  ((rf.peers.filter (fun p => decide (p.1 = r))).map (fun p => peerBytes p.2 comp)).sum

/-- The per-component count `rf`'s peer record for `r` declares (`0` when `r`
is not a peer; the lookup is total on successfully aggregated worlds). -/
def declaredTo (rf : RankFile) (comp : String) (r : Nat) : Nat :=
  match lookupA rf.peers r with
  | some peer => (lookupA peer.sent_count comp).getD 0
  | none => 0

/-! ## Per-rank size tables (`SizeData.from_rf`) -/

/-- `SizeData` (the 2-D table as a function of `peer_index`, `size_index`). -/
structure SizeData where
  rank : Nat
  occuring_sizes : List Nat
  peers : List Nat
  data : Nat → Nat → Nat

/-- The first pass of `SizeData.from_rf`: the set of occurring sizes for the
component, in first-occurrence order (deduplicated; sorted afterwards). -/
def collectSizes (rf : RankFile) (comp : String) : List Nat :=
  rf.peers.foldl
    (fun acc p =>
      (((lookupA p.2.sent_messages comp).getD [])).foldl
        (fun acc cs =>
          cs.msgs.foldl (fun acc m => if m.size ∈ acc then acc else acc ++ [m.size]) acc)
        acc)
    []

/-- `{value: index}` built by `enumerate` over a duplicate-free list. -/
def idxA {α : Type} [DecidableEq α] : List α → α → Nat
  | [], _ => 0
  | y :: ys, x => if y = x then 0 else idxA ys x + 1

/-- The second pass of `SizeData.from_rf`:
`data[recipient_idx, size_idx] += sum(msg.tags.values())` (uint64). -/
def sizeDataFill (peers sizes : List Nat) (comp : String) (entries : List (Nat × RankPeer)) :
    Nat → Nat → Nat :=
  entries.foldl
    (fun data p =>
      (((lookupA p.2.sent_messages comp).getD [])).foldl
        (fun data cs =>
          cs.msgs.foldl
            (fun data m =>
              upd2 data (idxA peers p.1) (idxA sizes m.size)
                ((data (idxA peers p.1) (idxA sizes m.size) + (m.tags.map Prod.snd).sum) % M64))
            data)
        data)
    (fun _ _ => 0)

/-- `SizeData.from_rf(sender_rf, component_name)`. -/
def sizeDataFromRf (rf : RankFile) (comp : String) : Except WErr SizeData :=
  match rf.peers.find? (fun p => decide (rf.general.num_procs ≤ p.1)) with
  | some p => .error (.invalidPeer rf.general.own_rank p.1)
  | none =>
    let peers := rf.peers.map Prod.fst
    let sizes := sortList (fun a b => decide (a ≤ b)) (collectSizes rf comp)
    .ok ⟨rf.general.own_rank, sizes, peers, sizeDataFill peers sizes comp rf.peers⟩

/-- The tag-occurrence total for messages of size `size` sent by `rf` to the
peer entry for `rec` within `comp`. -/
def sizeCount (rf : RankFile) (comp : String) (rec size : Nat) : Nat :=
  ((rf.peers.filter (fun p => decide (p.1 = rec))).map (fun p =>
    (((lookupA p.2.sent_messages comp).getD []).map (fun cs =>
      ((cs.msgs.filter (fun m => decide (m.size = size))).map
        (fun m => (m.tags.map Prod.snd).sum)).sum)).sum)).sum

/-! ## Raw rank-file cache (`parse_metadata` / `open_rank`) -/

/-- `RANK_FILE_CACHE_THRESHOLD`. -/
def RANK_FILE_CACHE_THRESHOLD : Nat := 500

/-- `WorldData.open_rank(rank)` over an abstract disk `fs`: returns the
record, the updated cache, and whether the file was (re-)read from disk. -/
def openRank (fs : Nat → RankFile) (cache : Option (List (Nat × RankFile))) (rank : Nat) :
    RankFile × Option (List (Nat × RankFile)) × Bool :=
  match cache with
  | some c =>
    match lookupA c rank with
    | some rf => (rf, some c, false)
    | none => (fs rank, some ((rank, fs rank) :: c), true)
  | none => (fs rank, none, true)

/-- The cache state `parse_metadata` leaves behind: rank 0 is read with no
cache in place, and `{0: rf0}` is installed only below the threshold. -/
def parseMetadataCache (fs : Nat → RankFile) : Option (List (Nat × RankFile)) :=
  let rf0 := (openRank fs none 0).1
  if rf0.general.num_procs < RANK_FILE_CACHE_THRESHOLD then some [(0, rf0)] else none

/-! ## Peer-id list decoding (`deserialize_peers`) -/

/-- A raw TOML value in a `peers` array: an integer or a string. -/
inductive PyVal where
  | int (n : Int)
  | str (s : String)
deriving DecidableEq

/-- Python `s.split(sep, 1)` for a one-character separator: the part before
the first occurrence and, when present, everything after it. -/
def splitFirst (c : Char) : List Char → List Char × Option (List Char)
  | [] => ([], none)
  | x :: xs =>
    if x = c then ([], some xs)
    else
      let r := splitFirst c xs
      (x :: r.1, r.2)

/-- The local `add_peer`: reject negatives, append. -/
def addPeer (out : List Int) (p : Int) : Except String (List Int) :=
  if p < 0 then .error "Peer invalid." else .ok (out ++ [p])

/-- `list(range(start, stop + 1))` for `start ≤ stop`. -/
def pyIntRange (start stop : Int) : List Int :=
  (List.range (stop + 1 - start).toNat).map (fun i : Nat => start + (i : Int))

/-- The loop of `deserialize_peers` with its accumulator. -/
def dpLoop : List PyVal → List Int → Except String (List Int)
  | [], out => .ok out
  | .int p :: rest, out =>
    match addPeer out p with
    | .ok out2 => dpLoop rest out2
    | .error e => .error e
  | .str s :: rest, out =>
    match splitFirst '-' s.toList with
    | (a, some b) =>
      match pyInt a, pyInt b with
      | some start, some stop =>
        if start > stop ∨ start < 0 then .error "Peer range invalid."
        else dpLoop rest (out ++ pyIntRange start stop)
      | _, _ => .error "invalid literal for int()"
    | (a, none) =>
      match pyInt a with
      | some p =>
        match addPeer out p with
        | .ok out2 => dpLoop rest out2
        | .error e => .error e
      | none => .error "invalid literal for int()"

/-- `deserialize_peers(peers)`. -/
def deserialize_peers (ps : List PyVal) : Except String (List Int) := dpLoop ps []

/-- The expansion of a single `peers` element: an explicit id or an inclusive
`"a-b"` range, validated; used to characterise `deserialize_peers` as a
flatten. -/
def tokExpand : PyVal → Except String (List Int)
  | .int p => if p < 0 then .error "Peer invalid." else .ok [p]
  | .str s =>
    match splitFirst '-' s.toList with
    | (a, some b) =>
      match pyInt a, pyInt b with
      | some start, some stop =>
        if start > stop ∨ start < 0 then .error "Peer range invalid."
        else .ok (pyIntRange start stop)
      | _, _ => .error "invalid literal for int()"
    | (a, none) =>
      match pyInt a with
      | some p => if p < 0 then .error "Peer invalid." else .ok [p]
      | none => .error "invalid literal for int()"

/-- The concatenation of all element expansions (first error wins): the
"flatten" that `deserialize_peers` is claimed to compute. -/
def tokExpandAll : List PyVal → Except String (List Int)
  | [] => .ok []
  | t :: ts =>
    match tokExpand t with
    | .error e => .error e
    | .ok l =>
      match tokExpandAll ts with
      | .error e => .error e
      | .ok ls => .ok (l ++ ls)

/-! ## Concrete inputs used by counterexamples and witnesses -/

/-- The §8 scenario: rank 0 sends to rank 1, component `"mtl"`, 3 messages of
size 64 with tag 7 and 2 of size 128 with tag 9, declared count 5. -/
def peer8 : RankPeer :=
  { components := ["mtl"]
    sent_count := [("mtl", 5)]
    sent_messages := [("mtl", [⟨1, [⟨64, [(7, 3)]⟩, ⟨128, [(9, 2)]⟩]⟩])] }

/-- Rank 0's file in the §8 scenario. -/
def rf8_0 : RankFile :=
  { general := ⟨0, 2, 1000, "h0", "ompi", []⟩, peers := [(1, peer8)] }

/-- Rank 1's file in the §8 scenario (sends nothing). -/
def rf8_1 : RankFile :=
  { general := ⟨1, 2, 900, "h1", "ompi", []⟩, peers := [] }

/-- The §8 two-rank world on disk. -/
def fs8 : Nat → RankFile := fun r => if r = 0 then rf8_0 else rf8_1

/-- A peer communicated with only within component `"mtl"`. -/
def peerMtl : RankPeer := ⟨["mtl"], [("mtl", 3)], [("mtl", [⟨1, [⟨64, [(7, 3)]⟩]⟩])]⟩

/-- A peer communicated with only within component `"ob1"`. -/
def peerOb1 : RankPeer := ⟨["ob1"], [("ob1", 2)], [("ob1", [⟨2, [⟨32, [(5, 2)]⟩]⟩])]⟩

/-- A rank file whose peer 2 exchanged no `"mtl"` traffic. -/
def rf9 : RankFile := ⟨⟨0, 3, 0, "h", "r", []⟩, [(1, peerMtl), (2, peerOb1)]⟩

/-- Rank 0 has no NUMA claim; ranks 1 and 2 hold mutually inconsistent NUMA
claims (`[1, 2]` vs `[1]`). -/
def rlsNoClaim : List (List RankLocality) := [[], [⟨.numa, [1, 2]⟩], [⟨.numa, [1]⟩]]

/-- Rank 0 claims NUMA peers `[0, 1]` but rank 1 claims `[0, 1, 2]`. -/
def rlsMismatch : List (List RankLocality) :=
  [[⟨.numa, [0, 1]⟩], [⟨.numa, [0, 1, 2]⟩], [⟨.numa, [0, 1, 2]⟩], [⟨.numa, [3]⟩]]

/-- Both ranks claim NUMA peers `[1]` — consistent, but rank 0 is in no
group. -/
def rlsSelfless : List (List RankLocality) := [[⟨.numa, [1]⟩], [⟨.numa, [1]⟩]]

/-- A consistent self-inclusive two-rank NUMA grouping. -/
def rlsPair : List (List RankLocality) := [[⟨.numa, [0, 1]⟩], [⟨.numa, [0, 1]⟩]]

/-- A rank file declaring exactly the threshold process count (500). -/
def rfBig : RankFile := ⟨⟨0, 500, 0, "h", "r", []⟩, []⟩

/-- A world at the cache threshold. -/
def fsBig : Nat → RankFile := fun _ => rfBig

/-- The discovered component list of an aggregation result (`[]` on error). -/
def exceptComps : Except WErr World → List String
  | .ok w => w.components
  | .error _ => []

/-- The `peers` array of a `SizeData` result (`[]` on error). -/
def okSizePeers : Except WErr SizeData → List Nat
  | .ok sd => sd.peers
  | .error _ => []

/-- `str(MultiRangeFilter(t))` (`[]` on a parse error). -/
def parsedStr (t : List Char) : List Char :=
  match multiRangeFilterInit (some t) false with
  | .ok f => multiRangeFilterStr f
  | .error _ => []

/-! ## Lemmas about decimal numerals -/

theorem digitChar_isDigit {d : Nat} (h : d < 10) : (digitChar d).isDigit = true := by
  interval_cases d <;> decide

theorem digitVal_digitChar {d : Nat} (h : d < 10) : digitVal (digitChar d) = d := by
  interval_cases d <;> decide

theorem mem_natDigitsAux_isDigit :
    ∀ fuel n, ∀ c ∈ natDigitsAux fuel n, c.isDigit = true := by
  intro fuel
  induction fuel with
  | zero => intro n c hc; simp [natDigitsAux] at hc
  | succ fuel ih =>
    intro n c hc
    match n with
    | 0 => simp [natDigitsAux] at hc
    | m + 1 =>
      rw [natDigitsAux] at hc
      rcases List.mem_append.mp hc with h1 | h2
      · exact ih _ c h1
      · rcases List.mem_singleton.mp h2 with rfl
        exact digitChar_isDigit (Nat.mod_lt _ (by norm_num))

theorem natDigitsAux_ne_nil {fuel n : Nat} (h0 : 0 < n) (hle : n ≤ fuel) :
    natDigitsAux fuel n ≠ [] := by
  cases fuel with
  | zero => omega
  | succ f =>
    cases n with
    | zero => omega
    | succ m => simp [natDigitsAux]

theorem digitsToNat_append (xs : List Char) (c : Char) :
    digitsToNat (xs ++ [c]) = 10 * digitsToNat xs + digitVal c := by
  simp [digitsToNat, List.foldl_append]

theorem digitsToNat_natDigitsAux :
    ∀ fuel n, n ≤ fuel → digitsToNat (natDigitsAux fuel n) = n := by
  intro fuel
  induction fuel with
  | zero =>
    intro n hn
    interval_cases n
    simp [natDigitsAux, digitsToNat]
  | succ fuel ih =>
    intro n hn
    match n with
    | 0 => simp [natDigitsAux, digitsToNat]
    | m + 1 =>
      rw [natDigitsAux, digitsToNat_append]
      have hdiv : (m + 1) / 10 ≤ fuel := by
        have h1 : (m + 1) / 10 < m + 1 := Nat.div_lt_self (Nat.succ_pos m) (by norm_num)
        omega
      rw [ih _ hdiv, digitVal_digitChar (Nat.mod_lt _ (by norm_num))]
      exact Nat.div_add_mod (m + 1) 10

theorem mem_pyStrNat_isDigit {n : Nat} {c : Char} (hc : c ∈ pyStrNat n) : c.isDigit = true := by
  unfold pyStrNat at hc
  split at hc
  · rcases List.mem_singleton.mp hc with rfl; decide
  · exact mem_natDigitsAux_isDigit n n c hc

theorem pyStrNat_ne_nil (n : Nat) : pyStrNat n ≠ [] := by
  unfold pyStrNat
  split
  · simp
  · exact natDigitsAux_ne_nil (Nat.pos_of_ne_zero (by assumption)) le_rfl

theorem digitsToNat_pyStrNat (n : Nat) : digitsToNat (pyStrNat n) = n := by
  unfold pyStrNat
  split
  · simp_all [digitsToNat, digitVal]
  · exact digitsToNat_natDigitsAux n n le_rfl

theorem isDigits_pyStrNat (n : Nat) : isDigits (pyStrNat n) = true := by
  unfold isDigits
  rw [Bool.and_eq_true, List.all_eq_true]
  refine ⟨?_, fun c hc => mem_pyStrNat_isDigit hc⟩
  simpa [List.isEmpty_iff] using pyStrNat_ne_nil n

theorem mem_pyStrInt_digit_or_minus {i : Int} {c : Char} (hc : c ∈ pyStrInt i) :
    c.isDigit = true ∨ c = '-' := by
  match i with
  | .ofNat n => exact Or.inl (mem_pyStrNat_isDigit hc)
  | .negSucc m =>
    rcases List.mem_cons.mp hc with rfl | h
    · exact Or.inr rfl
    · exact Or.inl (mem_pyStrNat_isDigit h)

theorem pyStrInt_ne_nil (i : Int) : pyStrInt i ≠ [] := by
  match i with
  | .ofNat n => exact pyStrNat_ne_nil n
  | .negSucc m => simp [pyStrInt]

theorem isDigit_ne {c : Char} (hc : c.isDigit = true) {d : Char} (hd : d.isDigit = false) :
    c ≠ d := by
  intro h
  rw [h, hd] at hc
  cases hc

theorem not_mem_pyStrInt {i : Int} {d : Char} (hd : d.isDigit = false) (hm : d ≠ '-') :
    d ∉ pyStrInt i := by
  intro h
  rcases mem_pyStrInt_digit_or_minus h with h1 | h1
  · rw [hd] at h1; cases h1
  · exact hm h1

theorem pyInt_digits {c : Char} {rest : List Char}
    (hd : c.isDigit = true) (hds : isDigits (c :: rest) = true) :
    pyInt (c :: rest) = some ((digitsToNat (c :: rest) : Nat) : Int) := by
  rw [pyInt, if_neg (isDigit_ne hd (by decide)), if_neg (isDigit_ne hd (by decide)), if_pos hds]

theorem pyInt_pyStrInt (i : Int) : pyInt (pyStrInt i) = some i := by
  match i with
  | .ofNat n =>
    show pyInt (pyStrNat n) = _
    obtain ⟨c, rest, hcr⟩ : ∃ c rest, pyStrNat n = c :: rest := by
      cases h : pyStrNat n with
      | nil => exact absurd h (pyStrNat_ne_nil n)
      | cons c r => exact ⟨c, r, rfl⟩
    have hd : c.isDigit = true := mem_pyStrNat_isDigit (hcr ▸ List.mem_cons_self c rest)
    have hds : isDigits (c :: rest) = true := hcr ▸ isDigits_pyStrNat n
    rw [hcr, pyInt_digits hd hds, ← hcr, digitsToNat_pyStrNat]
    rfl
  | .negSucc m =>
    show pyInt ('-' :: pyStrNat (m + 1)) = _
    rw [pyInt, if_neg (by decide), if_pos rfl, if_pos (isDigits_pyStrNat (m + 1)),
      digitsToNat_pyStrNat]
    simp [Int.negSucc_eq]

/-! ## Lemmas about `split`/`join` -/

theorem splitOnChar_no_sep {c : Char} : ∀ {t : List Char}, c ∉ t → splitOnChar c t = [t] := by
  intro t
  induction t with
  | nil => intro _; rfl
  | cons x xs ih =>
    intro h
    have hx : ¬x = c := fun he => h (he ▸ List.mem_cons_self x xs)
    have hxs : c ∉ xs := fun hm => h (List.mem_cons_of_mem x hm)
    rw [splitOnChar]
    simp only [if_neg hx, ih hxs]

theorem splitOnChar_append {c : Char} :
    ∀ {t : List Char}, c ∉ t → ∀ r, splitOnChar c (t ++ c :: r) = t :: splitOnChar c r := by
  intro t
  induction t with
  | nil =>
    intro _ r
    rw [List.nil_append, splitOnChar]
    simp
  | cons x xs ih =>
    intro h r
    have hx : ¬x = c := fun he => h (he ▸ List.mem_cons_self x xs)
    have hxs : c ∉ xs := fun hm => h (List.mem_cons_of_mem x hm)
    rw [List.cons_append, splitOnChar]
    simp only [if_neg hx, ih hxs r]

theorem splitOnChar_joinSep {c : Char} :
    ∀ {ts : List (List Char)}, ts ≠ [] → (∀ t ∈ ts, c ∉ t) →
      splitOnChar c (joinSep c ts) = ts := by
  intro ts
  induction ts with
  | nil => intro h; exact absurd rfl h
  | cons t ts ih =>
    intro _ hall
    cases ts with
    | nil => exact splitOnChar_no_sep (hall t (List.mem_cons_self t []))
    | cons t2 ts2 =>
      rw [joinSep, splitOnChar_append (hall t (List.mem_cons_self t _)),
        ih (List.cons_ne_nil t2 ts2) (fun u hu => hall u (List.mem_cons_of_mem t hu))]
      exact List.cons_ne_nil t2 ts2


/-! ## Round-trip lemmas for filter tokens -/

theorem not_mem_bound_chars {mn : Option Int} {d : Char} (hd : d.isDigit = false)
    (hm : d ≠ '-') (hi : d ≠ 'i') (hn : d ≠ 'n') (hf : d ≠ 'f') :
    d ∉ (match mn with | none => ['-', 'i', 'n', 'f'] | some n => pyStrInt n) := by
  match mn with
  | none =>
    intro h
    simp only [List.mem_cons, List.not_mem_nil, or_false] at h
    rcases h with rfl | rfl | rfl | rfl
    · exact hm rfl
    · exact hi rfl
    · exact hn rfl
    · exact hf rfl
  | some n => exact not_mem_pyStrInt hd hm

theorem not_mem_bound_chars_max {mx : Option Int} {d : Char} (hd : d.isDigit = false)
    (hm : d ≠ '-') (hp : d ≠ '+') (hi : d ≠ 'i') (hn : d ≠ 'n') (hf : d ≠ 'f') :
    d ∉ (match mx with | none => ['+', 'i', 'n', 'f'] | some n => pyStrInt n) := by
  match mx with
  | none =>
    intro h
    simp only [List.mem_cons, List.not_mem_nil, or_false] at h
    rcases h with rfl | rfl | rfl | rfl
    · exact hp rfl
    · exact hi rfl
    · exact hn rfl
    · exact hf rfl
  | some n => exact not_mem_pyStrInt hd hm

theorem isBoundGroup_pyStrInt (i : Int) : isBoundGroup (pyStrInt i) = true := by
  match i with
  | .ofNat n =>
    show isBoundGroup (pyStrNat n) = true
    obtain ⟨c, rest, hcr⟩ : ∃ c rest, pyStrNat n = c :: rest := by
      cases h : pyStrNat n with
      | nil => exact absurd h (pyStrNat_ne_nil n)
      | cons c r => exact ⟨c, r, rfl⟩
    have hd : c.isDigit = true := mem_pyStrNat_isDigit (hcr ▸ List.mem_cons_self c rest)
    rw [hcr, isBoundGroup, if_neg (isDigit_ne hd (by decide)),
      if_neg (isDigit_ne hd (by decide))]
    rw [← hcr, isDigits_pyStrNat]
    simp
  | .negSucc m =>
    show isBoundGroup ('-' :: pyStrNat (m + 1)) = true
    rw [isBoundGroup, if_neg (by decide), if_pos rfl, isDigits_pyStrNat]
    simp

theorem isBoundGroup_minBound (mn : Option Int) :
    isBoundGroup (match mn with | none => ['-', 'i', 'n', 'f'] | some n => pyStrInt n) = true := by
  match mn with
  | none => decide
  | some n => exact isBoundGroup_pyStrInt n

theorem isBoundGroup_maxBound (mx : Option Int) :
    isBoundGroup (match mx with | none => ['+', 'i', 'n', 'f'] | some n => pyStrInt n) = true := by
  match mx with
  | none => decide
  | some n => exact isBoundGroup_pyStrInt n

theorem pyStrInt_ne_neg_inf (i : Int) : pyStrInt i ≠ ['-', 'i', 'n', 'f'] := by
  intro h
  have : 'i' ∈ pyStrInt i := by rw [h]; simp
  rcases mem_pyStrInt_digit_or_minus this with h1 | h1
  · cases h1
  · cases h1

theorem pyStrInt_ne_inf (i : Int) : pyStrInt i ≠ ['i', 'n', 'f'] := by
  intro h
  have : 'i' ∈ pyStrInt i := by rw [h]; simp
  rcases mem_pyStrInt_digit_or_minus this with h1 | h1
  · cases h1
  · cases h1

theorem pyStrInt_ne_pos_inf (i : Int) : pyStrInt i ≠ ['+', 'i', 'n', 'f'] := by
  intro h
  have : 'i' ∈ pyStrInt i := by rw [h]; simp
  rcases mem_pyStrInt_digit_or_minus this with h1 | h1
  · cases h1
  · cases h1

theorem pyRangeMatch_shape {B1 B2 : List Char} (h1 : isBoundGroup B1 = true)
    (h2 : isBoundGroup B2 = true) (hs1 : ';' ∉ B1) (hs2 : ';' ∉ B2) :
    pyRangeMatch ('[' :: ((B1 ++ ';' :: B2) ++ [']'])) = some (B1, B2) := by
  rw [pyRangeMatch, if_pos rfl, List.getLast?_concat, if_pos rfl, List.dropLast_concat,
    splitOnChar_append hs1, splitOnChar_no_sep hs2]
  simp [h1, h2]

theorem pyRangeMatch_rangeFilterStr (r : RangeFilter) :
    pyRangeMatch (rangeFilterStr r) =
      some ((match r.min with | none => ['-', 'i', 'n', 'f'] | some n => pyStrInt n),
            (match r.max with | none => ['+', 'i', 'n', 'f'] | some n => pyStrInt n)) := by
  have hshape : rangeFilterStr r =
      '[' :: (((match r.min with | none => ['-', 'i', 'n', 'f'] | some n => pyStrInt n) ++
        ';' :: (match r.max with | none => ['+', 'i', 'n', 'f'] | some n => pyStrInt n)) ++ [']']) := by
    rw [rangeFilterStr]
    simp
  rw [hshape]
  exact pyRangeMatch_shape (isBoundGroup_minBound r.min) (isBoundGroup_maxBound r.max)
    (not_mem_bound_chars (by decide) (by decide) (by decide) (by decide) (by decide))
    (not_mem_bound_chars_max (by decide) (by decide) (by decide) (by decide) (by decide) (by decide))

theorem maxBound_branch (mx : Option Int) (sg : Option Nat) (mn' : Option Int) :
    (if ((match mx with | none => ['+', 'i', 'n', 'f'] | some n => pyStrInt n) = ['i', 'n', 'f'] ||
        (match mx with | none => ['+', 'i', 'n', 'f'] | some n => pyStrInt n) = ['+', 'i', 'n', 'f'])
      then (Except.ok (some ⟨mn', none, sg⟩) : Except String (Option RangeFilter))
      else
        match pyInt (match mx with | none => ['+', 'i', 'n', 'f'] | some n => pyStrInt n) with
        | some mxv => .ok (some ⟨mn', some mxv, sg⟩)
        | none => .error "Maximum of range is not an integer or positive infinity.") =
      .ok (some ⟨mn', mx, sg⟩) := by
  match mx with
  | none => simp
  | some x =>
    rw [if_neg (by simp [pyStrInt_ne_inf x, pyStrInt_ne_pos_inf x]), pyInt_pyStrInt]

theorem rangeFilterFromStr_roundtrip (r : RangeFilter) (s : Option Nat) :
    rangeFilterFromStr (rangeFilterStr r) s = .ok (some ⟨r.min, r.max, s⟩) := by
  obtain ⟨mn, mx, sg⟩ := r
  rw [rangeFilterFromStr.eq_def, pyRangeMatch_rangeFilterStr]
  dsimp only
  match mn with
  | none =>
    rw [if_pos rfl]
    exact maxBound_branch mx s none
  | some m =>
    rw [if_neg (pyStrInt_ne_neg_inf m), pyInt_pyStrInt]
    dsimp only
    exact maxBound_branch mx s (some m)

theorem pyRangeMatch_exactFilterStr (e : ExactFilter) :
    pyRangeMatch (exactFilterStr e) = none := by
  obtain ⟨c, rest, hcr⟩ : ∃ c rest, exactFilterStr e = c :: rest := by
    cases h : exactFilterStr e with
    | nil => exact absurd h (pyStrInt_ne_nil e.n)
    | cons c r => exact ⟨c, r, rfl⟩
  have hc : c.isDigit = true ∨ c = '-' :=
    mem_pyStrInt_digit_or_minus (hcr ▸ List.mem_cons_self c rest)
  have hne : ¬c = '[' := by
    rcases hc with h1 | h1
    · exact isDigit_ne h1 (by decide)
    · rw [h1]; decide
  rw [hcr, pyRangeMatch, if_neg hne]

theorem exactFilterFromStr_roundtrip (e : ExactFilter) (s : Option Nat) :
    exactFilterFromStr (exactFilterStr e) s = .ok ⟨e.n, s⟩ := by
  rw [exactFilterFromStr.eq_def, exactFilterStr, pyInt_pyStrInt]

theorem rangeFilterFromStr_exactStr (e : ExactFilter) (s : Option Nat) :
    rangeFilterFromStr (exactFilterStr e) s = .ok none := by
  rw [rangeFilterFromStr.eq_def, pyRangeMatch_exactFilterStr]

theorem multiRangeSegs_spec (tol : Bool) :
    ∀ (rs : List RangeFilter) (es : List ExactFilter) (ps : List (Nat × List Char))
      (racc : List RangeFilter) (eacc : List ExactFilter),
      ps.map Prod.snd = rs.map rangeFilterStr ++ es.map exactFilterStr →
      ∃ rs' es',
        multiRangeSegs tol ps racc eacc = .ok (racc ++ rs', eacc ++ es') ∧
        rs'.map (fun q => (q.min, q.max)) = rs.map (fun q => (q.min, q.max)) ∧
        es'.map ExactFilter.n = es.map ExactFilter.n := by
  intro rs
  induction rs with
  | nil =>
    intro es
    induction es with
    | nil =>
      intro ps racc eacc hps
      have hnil : ps = [] := by
        cases ps with
        | nil => rfl
        | cons p ps2 => simp at hps
      subst hnil
      exact ⟨[], [], by simp [multiRangeSegs], rfl, rfl⟩
    | cons e es ihe =>
      intro ps racc eacc hps
      cases ps with
      | nil => simp at hps
      | cons p ps2 =>
        obtain ⟨i, el⟩ := p
        simp only [List.map_cons, List.map_nil, List.nil_append] at hps
        injection hps with h1 h2
        subst h1
        rw [multiRangeSegs, rangeFilterFromStr_exactStr, exactFilterFromStr_roundtrip]
        obtain ⟨rs', es', hok, hr, he⟩ := ihe ps2 racc (eacc ++ [⟨e.n, some i⟩]) (by simpa using h2)
        refine ⟨rs', ⟨e.n, some i⟩ :: es', ?_, hr, ?_⟩
        · dsimp only
          rw [hok]
          simp
        · simp [he]
  | cons q rs2 ihr =>
    intro es ps racc eacc hps
    cases ps with
    | nil => simp at hps
    | cons p ps2 =>
      obtain ⟨i, el⟩ := p
      simp only [List.map_cons, List.cons_append] at hps
      injection hps with h1 h2
      subst h1
      rw [multiRangeSegs, rangeFilterFromStr_roundtrip]
      obtain ⟨rs', es', hok, hr, he⟩ := ihr es ps2 (racc ++ [⟨q.min, q.max, none⟩]) eacc (by simpa using h2)
      refine ⟨⟨q.min, q.max, none⟩ :: rs', es', ?_, ?_, he⟩
      · dsimp only
        rw [hok]
        simp
      · simp [hr]

theorem not_mem_rangeFilterStr {d : Char} (hd : d.isDigit = false) (hm : d ≠ '-')
    (hp : d ≠ '+') (hi : d ≠ 'i') (hn : d ≠ 'n') (hf : d ≠ 'f') (ho : d ≠ '[')
    (hc : d ≠ ']') (hs : d ≠ ';') (r : RangeFilter) : d ∉ rangeFilterStr r := by
  intro h
  rw [rangeFilterStr] at h
  rcases List.mem_cons.mp h with h1 | h1
  · exact ho h1
  rcases List.mem_append.mp h1 with h2 | h2
  · exact not_mem_bound_chars hd hm hi hn hf h2
  rcases List.mem_cons.mp h2 with h3 | h3
  · exact hs h3
  rcases List.mem_append.mp h3 with h4 | h4
  · exact not_mem_bound_chars_max hd hm hp hi hn hf h4
  · rcases List.mem_singleton.mp h4 with rfl
    exact hc rfl

theorem rangeFilterStr_ne_nil (r : RangeFilter) : rangeFilterStr r ≠ [] := by
  rw [rangeFilterStr]
  simp

theorem joinSep_ne_nil {c : Char} :
    ∀ {ts : List (List Char)}, ts ≠ [] → (∀ t ∈ ts, t ≠ []) → joinSep c ts ≠ [] := by
  intro ts hne hall
  match ts with
  | [t] => exact hall t (List.mem_cons_self t [])
  | t :: t2 :: ts2 =>
    rw [joinSep]
    · intro h
      rcases List.append_eq_nil.mp h with ⟨_, h2⟩
      cases h2
    · exact List.cons_ne_nil t2 ts2

/-- C5 (amended part 1): parsing `str(f)` back yields a filter whose ranges
and exacts agree with `f`'s under the source's `__eq__` (which compares only
`min`/`max` resp. `n`, ignoring `segment`). -/
theorem c5_parse_str_roundtrip (f : MultiRangeFilter) :
    ∃ f', multiRangeFilterInit (some (multiRangeFilterStr f)) false = .ok f' ∧
      f'.ranges.map (fun q => (q.min, q.max)) = f.ranges.map (fun q => (q.min, q.max)) ∧
      f'.exact.map ExactFilter.n = f.exact.map ExactFilter.n := by
  by_cases hnil : f.ranges = [] ∧ f.exact = []
  · obtain ⟨h1, h2⟩ := hnil
    refine ⟨⟨[], [], []⟩, ?_, by simp [h1], by simp [h2]⟩
    rw [multiRangeFilterStr, h1, h2]
    rfl
  · have htne : f.ranges.map rangeFilterStr ++ f.exact.map exactFilterStr ≠ [] := by
      intro h
      rcases List.append_eq_nil.mp h with ⟨h1, h2⟩
      exact hnil ⟨List.map_eq_nil_iff.mp h1, List.map_eq_nil_iff.mp h2⟩
    have hmemne : ∀ t ∈ f.ranges.map rangeFilterStr ++ f.exact.map exactFilterStr, t ≠ [] := by
      intro t ht
      rcases List.mem_append.mp ht with h1 | h1
      · obtain ⟨r, _, rfl⟩ := List.mem_map.mp h1
        exact rangeFilterStr_ne_nil r
      · obtain ⟨e, _, rfl⟩ := List.mem_map.mp h1
        exact pyStrInt_ne_nil e.n
    have hcomma : ∀ t ∈ f.ranges.map rangeFilterStr ++ f.exact.map exactFilterStr, ',' ∉ t := by
      intro t ht
      rcases List.mem_append.mp ht with h1 | h1
      · obtain ⟨r, _, rfl⟩ := List.mem_map.mp h1
        exact not_mem_rangeFilterStr (by decide) (by decide) (by decide) (by decide)
          (by decide) (by decide) (by decide) (by decide) (by decide) r
      · obtain ⟨e, _, rfl⟩ := List.mem_map.mp h1
        exact not_mem_pyStrInt (by decide) (by decide)
    have hj : joinSep ',' (f.ranges.map rangeFilterStr ++ f.exact.map exactFilterStr) ≠ [] :=
      joinSep_ne_nil htne hmemne
    have hsplit :
        splitOnChar ',' (joinSep ',' (f.ranges.map rangeFilterStr ++ f.exact.map exactFilterStr)) =
          f.ranges.map rangeFilterStr ++ f.exact.map exactFilterStr :=
      splitOnChar_joinSep htne hcomma
    obtain ⟨rs', es', hok, hr, he⟩ :=
      multiRangeSegs_spec false f.ranges f.exact
        (f.ranges.map rangeFilterStr ++ f.exact.map exactFilterStr).enum [] []
        (by rw [List.enum_map_snd])
    have hj' : (multiRangeFilterStr f).isEmpty = false := by
      rw [multiRangeFilterStr]
      simpa [List.isEmpty_iff] using hj
    have hsplit' : splitOnChar ',' (multiRangeFilterStr f) =
        f.ranges.map rangeFilterStr ++ f.exact.map exactFilterStr := by
      rw [multiRangeFilterStr]
      exact hsplit
    refine ⟨⟨rs', es', multiRangeFilterStr f⟩, ?_, by simpa using hr, by simpa using he⟩
    simp only [multiRangeFilterInit, Option.getD_some]
    rw [hj', if_neg Bool.false_ne_true, hsplit', hok]
    simp

/-- C4: multi-range parsing is positional only for exacts.  Parsing
`"5,[10;20],-3"` tags the exacts with segments 0 and 2, but the range filter
built from segment 1 is constructed through `RangeFilter.from_str(el)` with no
segment argument and records `segment = None`, not `segment = 1` — the
claimed positional invariant fails for ranges (and the GUI consumer
`filter_widgets._collectives_unchecked` raises on `segment is None`). -/
theorem c4_range_segment_not_recorded :
    multiRangeFilterInit (some "5,[10;20],-3".toList) false =
      .ok ⟨[⟨some 10, some 20, none⟩], [⟨5, some 0⟩, ⟨-3, some 2⟩], "5,[10;20],-3".toList⟩ :=
  rfl

/-- C5 counterexample: `str()` of the filter parsed from `"5,[10;20],-3"`
serialises ranges before exacts, producing `"[10;20],5,-3"` — not the three
original comma-joined tokens in their original order. -/
theorem c5_counterexample :
    parsedStr "5,[10;20],-3".toList = "[10;20],5,-3".toList ∧
    "[10;20],5,-3".toList ≠ "5,[10;20],-3".toList := by
  exact ⟨rfl, by decide⟩

/-- C6: the claim is right and the code wrong.  For the interior value 5 of
`[1;9]`, `remove_exact` returns `"[1; 4],[6;9]"` — with a space after the
semicolon (`f"[{min_str}; {n - 1}]"`), which the multi-range grammar's range
regex rejects, so the non-tolerant reparse raises instead of yielding the two
sub-ranges.  The right sub-range (`f"[{n + 1};{max_str}]"`) and the GUI's
input validator (`[inf0-9,;\+\-\[\]]*`, no space) show the space is a slip. -/
theorem c6_remove_exact_space_breaks_reparse :
    removeExact ⟨some 1, some 9, none⟩ 5 = "[1; 4],[6;9]".toList ∧
    (multiRangeFilterInit (some "[1; 4],[6;9]".toList) false).isOk = false := by
  exact ⟨rfl, rfl⟩


/-! ## C7: peer-id decoding -/

theorem dpLoop_eq : ∀ (ts : List PyVal) (out : List Int),
    dpLoop ts out = (tokExpandAll ts).map (fun ls => out ++ ls) := by
  intro ts
  induction ts with
  | nil => intro out; simp [dpLoop, tokExpandAll, Except.map]
  | cons t ts ih =>
    intro out
    match t with
    | .int p =>
      rw [dpLoop, tokExpandAll]
      by_cases hp : p < 0
      · simp [addPeer, tokExpand, hp, Except.map]
      · cases hm : tokExpandAll ts with
        | error e => simp [addPeer, tokExpand, hp, ih, hm, Except.map]
        | ok ls => simp [addPeer, tokExpand, hp, ih, hm, Except.map]
    | .str s =>
      rw [dpLoop, tokExpandAll]
      match hsp : splitFirst '-' s.toList with
      | (a, some b) =>
        have hsp' : splitFirst '-' s.data = (a, some b) := hsp
        match hpa : pyInt a, hpb : pyInt b with
        | some start, some stop =>
          by_cases hr : start > stop ∨ start < 0
          · simp [tokExpand, hsp, hsp', hpa, hpb, hr, Except.map]
          · cases hm : tokExpandAll ts with
            | error e => simp [tokExpand, hsp, hsp', hpa, hpb, hr, ih, hm, Except.map]
            | ok ls => simp [tokExpand, hsp, hsp', hpa, hpb, hr, ih, hm, Except.map]
        | some start, none => simp [tokExpand, hsp, hsp', hpa, hpb, Except.map]
        | none, some stop => simp [tokExpand, hsp, hsp', hpa, hpb, Except.map]
        | none, none => simp [tokExpand, hsp, hsp', hpa, hpb, Except.map]
      | (a, none) =>
        have hsp' : splitFirst '-' s.data = (a, none) := hsp
        match hpa : pyInt a with
        | some p =>
          by_cases hp : p < 0
          · simp [tokExpand, hsp, hsp', hpa, addPeer, hp, Except.map]
          · cases hm : tokExpandAll ts with
            | error e => simp [tokExpand, hsp, hsp', hpa, addPeer, hp, ih, hm, Except.map]
            | ok ls => simp [tokExpand, hsp, hsp', hpa, addPeer, hp, ih, hm, Except.map]
        | none => simp [tokExpand, hsp, hsp', hpa, Except.map]

theorem tokExpand_nonneg {t : PyVal} {l : List Int} (h : tokExpand t = .ok l) :
    ∀ x ∈ l, 0 ≤ x := by
  unfold tokExpand at h
  split at h
  · split at h
    · cases h
    · injection h with h2
      subst h2
      intro x hx
      rcases List.mem_singleton.mp hx with rfl
      omega
  · split at h
    · split at h
      · split at h
        · cases h
        · next hc =>
            injection h with h2
            subst h2
            intro x hx
            rw [pyIntRange] at hx
            obtain ⟨i, _, rfl⟩ := List.mem_map.mp hx
            have hi0 : (0 : Int) ≤ (i : Int) := Int.natCast_nonneg i
            omega
      · cases h
    · split at h
      · split at h
        · cases h
        · injection h with h2
          subst h2
          intro x hx
          rcases List.mem_singleton.mp hx with rfl
          omega
      · cases h

theorem tokExpandAll_mem : ∀ (ts : List PyVal) (out : List Int),
    tokExpandAll ts = .ok out → ∀ x ∈ out, ∃ t ∈ ts, ∃ l, tokExpand t = .ok l ∧ x ∈ l := by
  intro ts
  induction ts with
  | nil =>
    intro out h
    rw [tokExpandAll] at h
    injection h with h2
    subst h2
    intro x hx
    cases hx
  | cons t ts ih =>
    intro out h
    rw [tokExpandAll] at h
    cases he : tokExpand t with
    | error e => rw [he] at h; cases h
    | ok l1 =>
      rw [he] at h
      cases hm : tokExpandAll ts with
      | error e => rw [hm] at h; cases h
      | ok ls =>
        rw [hm] at h
        injection h with h2
        subst h2
        intro x hx
        rcases List.mem_append.mp hx with h1 | h1
        · exact ⟨t, List.mem_cons_self t ts, l1, he, h1⟩
        · obtain ⟨t2, ht2, l2, he2, hx2⟩ := ih ls hm x h1
          exact ⟨t2, List.mem_cons_of_mem t ht2, l2, he2, hx2⟩

theorem splitFirst_append {c : Char} :
    ∀ {a : List Char}, c ∉ a → ∀ b, splitFirst c (a ++ c :: b) = (a, some b) := by
  intro a
  induction a with
  | nil => intro _ b; rw [List.nil_append, splitFirst, if_pos rfl]
  | cons x xs ih =>
    intro h b
    have hx : ¬x = c := fun he => h (he ▸ List.mem_cons_self x xs)
    have hxs : c ∉ xs := fun hm => h (List.mem_cons_of_mem x hm)
    rw [List.cons_append, splitFirst]
    simp only [if_neg hx, ih hxs b]

/-- C7 counterexample: `deserialize_peers` does not deduplicate — the
accepted input `[1, 1]` decodes to `[1, 1]`, which contains a duplicate peer
id. -/
theorem c7_counterexample :
    deserialize_peers [.int 1, .int 1] = .ok [1, 1] ∧ ¬ List.Nodup [(1 : Int), 1] := by
  exact ⟨rfl, by decide⟩

/-- C7 (amended): decoding accepts explicit integers and inclusive `"a-b"`
ranges — an explicit integer contributes `[n]`, failing when `n < 0`; a
well-formed textual range `"a-b"` with `0 ≤ a ≤ b` contributes
`[a, a+1, ..., b]` (and fails when `start > stop` or `start < 0`) — and
flattens the per-element expansions into one plain integer list in order,
every decoded id nonnegative.  The list is *not* deduplicated (see the
counterexample). -/
theorem c7_accept_flatten_nonneg :
    (∀ ts, deserialize_peers ts = tokExpandAll ts) ∧
    (∀ n : Int, tokExpand (.int n) = if n < 0 then .error "Peer invalid." else .ok [n]) ∧
    (∀ start stop : Int, 0 ≤ start → start ≤ stop →
      tokExpand (.str (String.mk (pyStrInt start ++ '-' :: pyStrInt stop))) =
        .ok (pyIntRange start stop)) ∧
    (∀ ts out, deserialize_peers ts = .ok out → ∀ x ∈ out, 0 ≤ x) := by
  refine ⟨?_, fun n => rfl, ?_, ?_⟩
  · intro ts
    rw [deserialize_peers, dpLoop_eq]
    cases hm : tokExpandAll ts with
    | error e => rfl
    | ok ls => simp [Except.map]
  · intro start stop h0 hle
    have hnm : '-' ∉ pyStrInt start := by
      match start, h0 with
      | .ofNat n, _ =>
        intro hmem
        have hdig := mem_pyStrNat_isDigit hmem
        cases hdig
    have hsp : splitFirst '-' (pyStrInt start ++ '-' :: pyStrInt stop) =
        (pyStrInt start, some (pyStrInt stop)) := splitFirst_append hnm _
    have htl : (String.mk (pyStrInt start ++ '-' :: pyStrInt stop)).toList =
        pyStrInt start ++ '-' :: pyStrInt stop := rfl
    simp only [tokExpand, htl, hsp, pyInt_pyStrInt]
    rw [if_neg (by omega)]
  · intro ts out h x hx
    rw [deserialize_peers, dpLoop_eq] at h
    cases hm : tokExpandAll ts with
    | error e => rw [hm] at h; cases h
    | ok ls =>
      rw [hm] at h
      simp only [Except.map] at h
      injection h with h2
      subst h2
      simp only [List.nil_append] at hx
      obtain ⟨t, _, l, he, hxl⟩ := tokExpandAll_mem ts ls hm x hx
      exact tokExpand_nonneg he x hxl

/-! ## C8: the raw rank-file cache -/

/-- C8 counterexample: at the threshold itself (process count 500) the cache
is disabled and rank 0's decoded record is *not* retained — `open_rank(0)`
re-reads the file from disk, contradicting "rank 0's decoded record is always
retained at minimum regardless of the threshold decision". -/
theorem c8_counterexample :
    rfBig.general.num_procs = RANK_FILE_CACHE_THRESHOLD ∧
    parseMetadataCache fsBig = none ∧
    (openRank fsBig (parseMetadataCache fsBig) 0).2.2 = true := by
  exact ⟨rfl, rfl, rfl⟩

/-- C8 (amended): the raw `RankRecord` cache is enabled exactly when the
process count read from rank 0's file is below the fixed threshold 500; when
enabled, it is seeded with rank 0's decoded record; when disabled (at or
above the threshold) nothing is retained — every rank access, rank 0
included, re-reads and re-decodes the file from disk. -/
theorem c8_cache_enabled_iff_below_threshold (fs : Nat → RankFile) :
    ((parseMetadataCache fs).isSome ↔
      (fs 0).general.num_procs < RANK_FILE_CACHE_THRESHOLD) ∧
    ((fs 0).general.num_procs < RANK_FILE_CACHE_THRESHOLD →
      parseMetadataCache fs = some [(0, fs 0)]) ∧
    (parseMetadataCache fs = none →
      ∀ rank, (openRank fs (parseMetadataCache fs) rank).2.2 = true ∧
        (openRank fs (parseMetadataCache fs) rank).1 = fs rank) := by
  unfold parseMetadataCache openRank
  by_cases h : (fs 0).general.num_procs < RANK_FILE_CACHE_THRESHOLD
  · refine ⟨by simp [h], fun _ => by simp [h], fun hc => ?_⟩
    rw [if_pos h] at hc
    cases hc
  · refine ⟨by simp [h], fun hlt => absurd hlt h, fun _ rank => ?_⟩
    rw [if_neg h]
    exact ⟨rfl, rfl⟩

/-- C8 witness: below the threshold (the §8 two-rank world) the cache is
enabled and holds rank 0's record; at the threshold (`fsBig`) it is disabled
and rank 3 (like every rank) is read from disk. -/
theorem c8_witness :
    parseMetadataCache fs8 = some [(0, fs8 0)] ∧
    ((parseMetadataCache fs8).isSome ↔
      (fs8 0).general.num_procs < RANK_FILE_CACHE_THRESHOLD) ∧
    (openRank fsBig (parseMetadataCache fsBig) 3).2.2 = true := by
  refine ⟨(c8_cache_enabled_iff_below_threshold fs8).2.1 (by decide),
    (c8_cache_enabled_iff_below_threshold fs8).1,
    ((c8_cache_enabled_iff_below_threshold fsBig).2.2 rfl 3).1⟩

/-! ## Locality resolution: supporting lemmas -/

theorem parseLocality_ok_irrel {r r' : Nat} {ls : List RankLocality} {t : LocalityType}
    {v : Option RankLocality} (h : parseLocality r ls t = .ok v) :
    parseLocality r' ls t = .ok v := by
  unfold parseLocality at h ⊢
  match hf : ls.filter (fun l => decide (l.type = t)) with
  | [] => rw [hf] at h; rw [hf]; exact h
  | [l] => rw [hf] at h; rw [hf]; exact h
  | a :: b :: rest => rw [hf] at h; cases h

theorem parseLocality_of_countP {rank : Nat} {ls : List RankLocality} {t : LocalityType}
    (h : ls.countP (fun l => decide (l.type = t)) = 1) :
    ∃ cl, parseLocality rank ls t = .ok (some cl) := by
  rw [List.countP_eq_length_filter] at h
  unfold parseLocality
  match hf : ls.filter (fun l => decide (l.type = t)) with
  | [] => rw [hf] at h; cases h
  | [l] => exact ⟨l, by rw [hf]⟩
  | a :: b :: rest => rw [hf] at h; simp at h

theorem parseLocality_mem {rank : Nat} {ls : List RankLocality} {t : LocalityType}
    {cl : RankLocality} (h : parseLocality rank ls t = .ok (some cl)) :
    cl ∈ ls ∧ cl.type = t := by
  unfold parseLocality at h
  match hf : ls.filter (fun l => decide (l.type = t)) with
  | [] => rw [hf] at h; cases h
  | [l] =>
    rw [hf] at h
    have h3 : l = cl := by injection h with h2; injection h2
    have hm : l ∈ ls.filter (fun x => decide (x.type = t)) := by rw [hf]; simp
    have hmf := List.mem_filter.mp hm
    rw [← h3]
    exact ⟨hmf.1, by simpa using hmf.2⟩
  | a :: b :: rest => rw [hf] at h; cases h

theorem claimPeersOf_eq {rls : List (List RankLocality)} {t : LocalityType} {r : Nat}
    {cl : RankLocality} (h : parseLocality r (rls.getD r []) t = .ok (some cl)) :
    claimPeersOf rls t r = some cl.peers := by
  unfold claimPeersOf
  rw [h]

theorem verifyPeers_ok {rls : List (List RankLocality)} {t : LocalityType} {rank : Nat}
    {fpeers : List Nat} :
    ∀ (todo : List Nat) (covered covered2 : Nat → Bool),
      verifyPeers rls t rank fpeers todo covered = .ok covered2 →
      (∀ x ∈ todo, claimPeersOf rls t x = some fpeers) ∧
      (∀ x, covered2 x = true ↔ (x ∈ todo ∨ covered x = true)) := by
  intro todo
  induction todo with
  | nil =>
    intro covered covered2 h
    rw [verifyPeers] at h
    injection h with h2
    subst h2
    exact ⟨fun x hx => absurd hx (List.not_mem_nil x), fun x => by simp⟩
  | cons o rest ih =>
    intro covered covered2 h
    rw [verifyPeers] at h
    split at h
    · -- o < rls.length
      cases hp : parseLocality rank (rls.getD o []) t with
      | error e => rw [hp] at h; cases h
      | ok v =>
        cases v with
        | none => rw [hp] at h; cases h
        | some cl =>
          rw [hp] at h
          dsimp only at h
          split at h
          · next heq =>
              obtain ⟨h1, h2⟩ := ih _ _ h
              have hcl : claimPeersOf rls t o = some fpeers := by
                rw [claimPeersOf_eq (parseLocality_ok_irrel hp), heq]
              refine ⟨fun x hx => ?_, fun x => ?_⟩
              · rcases List.mem_cons.mp hx with rfl | hx2
                · exact hcl
                · exact h1 x hx2
              · rw [h2 x]
                constructor
                · rintro (hx | hx)
                  · exact Or.inl (List.mem_cons_of_mem o hx)
                  · by_cases hxo : x = o
                    · exact Or.inl (hxo ▸ List.mem_cons_self o rest)
                    · rw [if_neg hxo] at hx
                      exact Or.inr hx
                · rintro (hx | hx)
                  · rcases List.mem_cons.mp hx with rfl | hx2
                    · exact Or.inr (by rw [if_pos rfl])
                    · exact Or.inl hx2
                  · by_cases hxo : x = o
                    · exact Or.inr (by rw [if_pos hxo])
                    · exact Or.inr (by rw [if_neg hxo]; exact hx)
          · cases h
    · cases h

theorem verifyPeers_error {rls : List (List RankLocality)} {t : LocalityType} {rank : Nat}
    {fpeers : List Nat}
    (HU : ∀ o, o < rls.length →
      (rls.getD o []).countP (fun l => decide (l.type = t)) = 1) :
    ∀ (todo : List Nat) (covered : Nat → Bool) (e : LocErr),
      (∀ o ∈ todo, o < rls.length) →
      verifyPeers rls t rank fpeers todo covered = .error e →
      ∃ o ∈ todo, e = .mismatch rank o ∧ claimPeersOf rls t o ≠ some fpeers := by
  intro todo
  induction todo with
  | nil =>
    intro covered e _ h
    rw [verifyPeers] at h
    cases h
  | cons o rest ih =>
    intro covered e hlt h
    rw [verifyPeers] at h
    split at h
    · obtain ⟨cl, hcl⟩ := @parseLocality_of_countP rank _ _
        (HU o (hlt o (List.mem_cons_self o rest)))
      rw [hcl] at h
      dsimp only at h
      split at h
      · obtain ⟨o2, ho2, he2, hne2⟩ := ih _ _ (fun x hx => hlt x (List.mem_cons_of_mem o hx)) h
        exact ⟨o2, List.mem_cons_of_mem o ho2, he2, hne2⟩
      · next hne =>
          injection h with h2
          refine ⟨o, List.mem_cons_self o rest, h2.symm, ?_⟩
          rw [claimPeersOf_eq (parseLocality_ok_irrel hcl)]
          intro hcon
          injection hcon with h3
          exact hne h3
    · exact absurd (hlt o (List.mem_cons_self o rest)) (by assumption)

theorem insertSorted_perm {α : Type} (le : α → α → Bool) (x : α) :
    ∀ l : List α, (insertSorted le x l).Perm (x :: l) := by
  intro l
  induction l with
  | nil => exact List.Perm.refl _
  | cons y ys ih =>
    rw [insertSorted]
    split
    · exact List.Perm.refl _
    · exact (ih.cons y).trans (List.Perm.swap x y ys)

theorem sortList_perm {α : Type} (le : α → α → Bool) :
    ∀ l : List α, (sortList le l).Perm l := by
  intro l
  induction l with
  | nil => exact List.Perm.refl _
  | cons x xs ih =>
    have : sortList le (x :: xs) = insertSorted le x (sortList le xs) := rfl
    rw [this]
    exact (insertSorted_perm le x (sortList le xs)).trans (ih.cons x)

theorem glLoop_ok {rls : List (List RankLocality)} {t : LocalityType} :
    ∀ (ranks : List Nat) (covered : Nat → Bool) (acc out : List (List Nat)),
      glLoop rls t ranks covered acc = .ok (some out) →
      (∀ x, covered x = true → ∃ g ∈ acc, claimPeersOf rls t x = some g) →
      (∀ g ∈ acc, ∀ x ∈ g, claimPeersOf rls t x = some g) →
      ∃ acc2, out = sortList pyListLe acc2 ∧
        (∀ g ∈ acc, g ∈ acc2) ∧
        (∀ g ∈ acc2, ∀ x ∈ g, claimPeersOf rls t x = some g) ∧
        (∀ r ∈ ranks, ∃ g ∈ acc2, claimPeersOf rls t r = some g) := by
  intro ranks
  induction ranks with
  | nil =>
    intro covered acc out h hI1 hI3
    rw [glLoop] at h
    injection h with h2
    injection h2 with h3
    exact ⟨acc, h3.symm, fun g hg => hg, hI3, fun r hr => absurd hr (List.not_mem_nil r)⟩
  | cons r rest ih =>
    intro covered acc out h hI1 hI3
    rw [glLoop] at h
    split at h
    · next hcov =>
        obtain ⟨acc2, hout, hsub, hI3', hcover⟩ := ih _ _ _ h hI1 hI3
        obtain ⟨g, hg, hgc⟩ := hI1 r hcov
        exact ⟨acc2, hout, hsub, hI3',
          fun x hx => (List.mem_cons.mp hx).elim (fun hxr => hxr ▸ ⟨g, hsub g hg, hgc⟩)
            (fun hx2 => hcover x hx2)⟩
    · next hcov =>
        cases hp : parseLocality r (rls.getD r []) t with
        | error e => rw [hp] at h; cases h
        | ok v =>
          cases v with
          | none => rw [hp] at h; simp at h
          | some found =>
            rw [hp] at h
            dsimp only at h
            cases hv : verifyPeers rls t r found.peers found.peers covered with
            | error e => rw [hv] at h; cases h
            | ok covered2 =>
              rw [hv] at h
              obtain ⟨hva, hvb⟩ := verifyPeers_ok found.peers covered covered2 hv
              have hrclaim : claimPeersOf rls t r = some found.peers := claimPeersOf_eq hp
              have hI1' : ∀ x, (if x = r then true else covered2 x) = true →
                  ∃ g ∈ acc ++ [found.peers], claimPeersOf rls t x = some g := by
                intro x hx
                by_cases hxr : x = r
                · subst hxr
                  exact ⟨found.peers, by simp, hrclaim⟩
                · rw [if_neg hxr] at hx
                  rcases (hvb x).mp hx with hmem | hcv
                  · exact ⟨found.peers, by simp, hva x hmem⟩
                  · obtain ⟨g, hg, hgc⟩ := hI1 x hcv
                    exact ⟨g, List.mem_append_left _ hg, hgc⟩
              have hI3' : ∀ g ∈ acc ++ [found.peers], ∀ x ∈ g,
                  claimPeersOf rls t x = some g := by
                intro g hg x hx
                rcases List.mem_append.mp hg with h1 | h1
                · exact hI3 g h1 x hx
                · rcases List.mem_singleton.mp h1 with rfl
                  exact hva x hx
              obtain ⟨acc2, hout, hsub, hI3'', hcover⟩ := ih _ _ _ h hI1' hI3'
              refine ⟨acc2, hout, fun g hg => hsub g (List.mem_append_left _ hg), hI3'', ?_⟩
              intro x hx
              rcases List.mem_cons.mp hx with rfl | hx2
              · exact ⟨found.peers, hsub found.peers (by simp), hrclaim⟩
              · exact hcover x hx2

theorem glLoop_count {rls : List (List RankLocality)} {t : LocalityType}
    (HSELF : ∀ x g, claimPeersOf rls t x = some g → x ∈ g) :
    ∀ (ranks : List Nat) (covered : Nat → Bool) (acc out : List (List Nat)),
      glLoop rls t ranks covered acc = .ok (some out) →
      (∀ g ∈ acc, ∀ x ∈ g, covered x = true) →
      (∀ g ∈ acc, ∀ x ∈ g, claimPeersOf rls t x = some g) →
      (∀ x, acc.countP (fun g => decide (x ∈ g)) ≤ 1) →
      ∀ x, out.countP (fun g => decide (x ∈ g)) ≤ 1 := by
  intro ranks
  induction ranks with
  | nil =>
    intro covered acc out h hI2 hI3 hI4 x
    rw [glLoop] at h
    injection h with h2
    injection h2 with h3
    rw [← h3, List.Perm.countP_eq _ (sortList_perm pyListLe acc)]
    exact hI4 x
  | cons r rest ih =>
    intro covered acc out h hI2 hI3 hI4
    rw [glLoop] at h
    split at h
    · exact ih _ _ _ h hI2 hI3 hI4
    · next hcov =>
        cases hp : parseLocality r (rls.getD r []) t with
        | error e => rw [hp] at h; cases h
        | ok v =>
          cases v with
          | none => rw [hp] at h; simp at h
          | some found =>
            rw [hp] at h
            dsimp only at h
            cases hv : verifyPeers rls t r found.peers found.peers covered with
            | error e => rw [hv] at h; cases h
            | ok covered2 =>
              rw [hv] at h
              obtain ⟨hva, hvb⟩ := verifyPeers_ok found.peers covered covered2 hv
              have hrclaim : claimPeersOf rls t r = some found.peers := claimPeersOf_eq hp
              have hI2' : ∀ g ∈ acc ++ [found.peers], ∀ x ∈ g,
                  (if x = r then true else covered2 x) = true := by
                intro g hg x hx
                by_cases hxr : x = r
                · rw [if_pos hxr]
                · rw [if_neg hxr]
                  rcases List.mem_append.mp hg with h1 | h1
                  · exact (hvb x).mpr (Or.inr (hI2 g h1 x hx))
                  · rcases List.mem_singleton.mp h1 with rfl
                    exact (hvb x).mpr (Or.inl hx)
              have hI3' : ∀ g ∈ acc ++ [found.peers], ∀ x ∈ g,
                  claimPeersOf rls t x = some g := by
                intro g hg x hx
                rcases List.mem_append.mp hg with h1 | h1
                · exact hI3 g h1 x hx
                · rcases List.mem_singleton.mp h1 with rfl
                  exact hva x hx
              have hI4' : ∀ x, (acc ++ [found.peers]).countP (fun g => decide (x ∈ g)) ≤ 1 := by
                intro x
                rw [List.countP_append]
                by_cases hxf : x ∈ found.peers
                · have hzero : acc.countP (fun g => decide (x ∈ g)) = 0 := by
                    by_contra hnz
                    have hpos : 0 < acc.countP (fun g => decide (x ∈ g)) :=
                      Nat.pos_of_ne_zero hnz
                    obtain ⟨g, hg, hxg⟩ := List.countP_pos.mp hpos
                    have hxg' : x ∈ g := of_decide_eq_true hxg
                    have h1 : claimPeersOf rls t x = some g := hI3 g hg x hxg'
                    have h2 : claimPeersOf rls t x = some found.peers := hva x hxf
                    have hgf : g = found.peers := by
                      rw [h1] at h2
                      injection h2
                    have hrf : r ∈ found.peers := HSELF r found.peers hrclaim
                    have : covered r = true := hI2 g hg r (hgf ▸ hrf)
                    simp [this] at hcov
                  rw [hzero]
                  simp [hxf]
                · have : ([found.peers].countP (fun g => decide (x ∈ g))) = 0 := by
                    simp [hxf]
                  rw [this]
                  simpa using hI4 x
              exact ih _ _ _ h hI2' hI3' hI4'

theorem glLoop_errors {rls : List (List RankLocality)} {t : LocalityType}
    (HU : ∀ o, o < rls.length →
      (rls.getD o []).countP (fun l => decide (l.type = t)) = 1)
    (HR : ∀ o cl, o < rls.length → parseLocality o (rls.getD o []) t = .ok (some cl) →
      ∀ p ∈ cl.peers, p < rls.length) :
    ∀ (ranks : List Nat) (covered : Nat → Bool) (acc : List (List Nat)),
      (∀ r ∈ ranks, r < rls.length) →
      glLoop rls t ranks covered acc ≠ .ok none ∧
      (∀ e, glLoop rls t ranks covered acc = .error e →
        ∃ r o g, e = .mismatch r o ∧ claimPeersOf rls t r = some g ∧ o ∈ g ∧
          claimPeersOf rls t o ≠ some g) := by
  intro ranks
  induction ranks with
  | nil =>
    intro covered acc _
    rw [glLoop]
    exact ⟨by simp, fun e h => by cases h⟩
  | cons r rest ih =>
    intro covered acc hlt
    rw [glLoop]
    split
    · exact ih _ _ (fun x hx => hlt x (List.mem_cons_of_mem r hx))
    · obtain ⟨cl, hp⟩ := @parseLocality_of_countP r _ _
        (HU r (hlt r (List.mem_cons_self r rest)))
      rw [hp]
      dsimp only
      cases hv : verifyPeers rls t r cl.peers cl.peers covered with
      | error e0 =>
        refine ⟨by simp, fun e h => ?_⟩
        injection h with h2
        subst h2
        obtain ⟨o, ho, he, hne⟩ := verifyPeers_error HU cl.peers covered e0
          (fun p hpm => HR r cl (hlt r (List.mem_cons_self r rest)) hp p hpm) hv
        exact ⟨r, o, cl.peers, he, claimPeersOf_eq hp, ho, hne⟩
      | ok covered2 =>
        exact ih _ _ (fun x hx => hlt x (List.mem_cons_of_mem r hx))

/-- C3 counterexample: when an early rank lacks a claim of the kind,
resolution returns `None` before ever checking later ranks, even though ranks
1 and 2 hold genuinely inconsistent NUMA claims (`[1,2]` vs `[1]`): no error
is raised and no ranks are named. -/
theorem c3_counterexample :
    getLocalitiesFromRfs rlsNoClaim .numa = .ok none ∧
    claimPeersOf rlsNoClaim .numa 1 = some [1, 2] ∧
    (2 : Nat) ∈ [1, 2] ∧
    claimPeersOf rlsNoClaim .numa 2 ≠ some [1, 2] := by
  exact ⟨rfl, rfl, by decide, by decide⟩

/-- C3 (amended): provided every rank has exactly one claim of the kind (if
an uncovered rank lacks one, resolution instead returns `None` without
checking the rest — see the counterexample) and all claimed peer ids are in
range, any asymmetry is fatal: if some rank's claim lists a peer set and a
rank in that peer set reports a different peer set for the same kind,
resolution raises the inconsistency error naming two ranks `r` and `o` that
genuinely disagree (`o` lies in `r`'s claimed peer set and `o`'s own claim
differs from it); it never silently picks one of the two claims. -/
theorem c3_asymmetry_is_fatal (rls : List (List RankLocality)) (t : LocalityType)
    (HU : ∀ o, o < rls.length →
      (rls.getD o []).countP (fun l => decide (l.type = t)) = 1)
    (HR : ∀ o, o < rls.length → ∀ l ∈ rls.getD o [], l.type = t →
      ∀ p ∈ l.peers, p < rls.length)
    (HINC : ∃ a g, a < rls.length ∧ claimPeersOf rls t a = some g ∧
      ∃ b ∈ g, claimPeersOf rls t b ≠ some g) :
    ∃ r o g, getLocalitiesFromRfs rls t = .error (.mismatch r o) ∧
      claimPeersOf rls t r = some g ∧ o ∈ g ∧ claimPeersOf rls t o ≠ some g := by
  have HR' : ∀ o cl, o < rls.length → parseLocality o (rls.getD o []) t = .ok (some cl) →
      ∀ p ∈ cl.peers, p < rls.length := by
    intro o cl ho hcl p hpm
    obtain ⟨hmem, htype⟩ := parseLocality_mem hcl
    exact HR o ho cl hmem htype p hpm
  obtain ⟨a, g, ha, hag, b, hbg, hbne⟩ := HINC
  cases hres : getLocalitiesFromRfs rls t with
  | error e =>
    obtain ⟨-, herr⟩ := glLoop_errors HU HR' (List.range rls.length) (fun _ => false) []
      (fun r hr => List.mem_range.mp hr)
    obtain ⟨r, o, g2, he, hr2, ho2, hne2⟩ := herr e hres
    exact ⟨r, o, g2, by rw [he], hr2, ho2, hne2⟩
  | ok v =>
    cases v with
    | none =>
      obtain ⟨hnone, -⟩ := glLoop_errors HU HR' (List.range rls.length) (fun _ => false) []
        (fun r hr => List.mem_range.mp hr)
      exact absurd hres hnone
    | some out =>
      obtain ⟨acc2, -, -, hI3, hcover⟩ := glLoop_ok (List.range rls.length) (fun _ => false) []
        out hres (fun x hx => by cases hx) (fun g hg => absurd hg (List.not_mem_nil g))
      obtain ⟨g', hg', hgc⟩ := hcover a (List.mem_range.mpr ha)
      have hgg : g' = g := by
        rw [hag] at hgc
        injection hgc with h
        exact h.symm
      subst hgg
      exact absurd (hI3 g' hg' b hbg) hbne

/-- C3 witness: four ranks where rank 0 claims NUMA peers `[0, 1]` but rank 1
claims `[0, 1, 2]` — resolution raises the mismatch error naming two
genuinely disagreeing ranks. -/
theorem c3_witness :
    ∃ r o g, getLocalitiesFromRfs rlsMismatch .numa = .error (.mismatch r o) ∧
      claimPeersOf rlsMismatch .numa r = some g ∧ o ∈ g ∧
      claimPeersOf rlsMismatch .numa o ≠ some g := by
  exact c3_asymmetry_is_fatal rlsMismatch .numa (by decide) (by decide)
    ⟨0, [0, 1], by decide, rfl, 1, by decide, by decide⟩

/-! ## C2: regrouping is a partition sum -/

theorem foldl_mod_add {α : Type} (f : α → Nat) :
    ∀ (l : List α) (acc : Nat), acc < M64 →
      l.foldl (fun a x => (a + f x) % M64) acc = (acc + (l.map f).sum) % M64 := by
  intro l
  induction l with
  | nil => intro acc hacc; simp [Nat.mod_eq_of_lt hacc]
  | cons x xs ih =>
    intro acc _
    rw [List.foldl_cons, ih _ (Nat.mod_lt _ (by decide)), List.map_cons, List.sum_cons,
      Nat.mod_add_mod, Nat.add_assoc]

theorem foldl_mod_add2 (m : Nat → Nat → Nat) (rs : List Nat) :
    ∀ (ss : List Nat) (acc : Nat), acc < M64 →
      ss.foldl (fun acc s => rs.foldl (fun a r => (a + m s r) % M64) acc) acc =
        (acc + (ss.map (fun s => (rs.map (m s)).sum)).sum) % M64 := by
  intro ss
  induction ss with
  | nil => intro acc hacc; simp [Nat.mod_eq_of_lt hacc]
  | cons s ss ih =>
    intro acc hacc
    rw [List.foldl_cons, foldl_mod_add (m s) rs acc hacc, ih _ (Nat.mod_lt _ (by decide)),
      List.map_cons, List.sum_cons, Nat.mod_add_mod, Nat.add_assoc]

theorem regroupCell_eq (m : Nat → Nat → Nat) (ss rs : List Nat) :
    regroupCell m ss rs = ((ss.map (fun s => (rs.map (m s)).sum)).sum) % M64 := by
  unfold regroupCell
  rw [foldl_mod_add2 m rs ss 0 (by decide), Nat.zero_add]

theorem claimPeersOf_inv {rls : List (List RankLocality)} {t : LocalityType} {r : Nat}
    {g : List Nat} (h : claimPeersOf rls t r = some g) :
    ∃ cl, parseLocality r (rls.getD r []) t = .ok (some cl) ∧ cl.peers = g := by
  unfold claimPeersOf at h
  cases hp : parseLocality r (rls.getD r []) t with
  | error e => rw [hp] at h; cases h
  | ok v =>
    cases v with
    | none => rw [hp] at h; cases h
    | some cl =>
      rw [hp] at h
      injection h with h2
      exact ⟨cl, rfl, h2⟩

theorem claimPeersOf_self {rls : List (List RankLocality)} {t : LocalityType}
    (HSELF : ∀ r, r < rls.length → ∀ l ∈ rls.getD r [], l.type = t → r ∈ l.peers) :
    ∀ x g, claimPeersOf rls t x = some g → x ∈ g := by
  intro x g h
  obtain ⟨cl, hp, hpg⟩ := claimPeersOf_inv h
  obtain ⟨hmem, htype⟩ := parseLocality_mem hp
  by_cases hx : x < rls.length
  · exact hpg ▸ HSELF x hx cl hmem htype
  · rw [List.getD_eq_default _ _ (Nat.le_of_not_lt hx)] at hmem
    cases hmem

/-- C2 counterexample: both ranks of a two-rank world claim NUMA peers `[1]`
(not containing rank 0).  Resolution succeeds with the grouping `[[1]]`, and
rank 0 belongs to zero groups — not exactly one. -/
theorem c2_counterexample :
    rlsSelfless.length = 2 ∧
    getLocalitiesFromRfs rlsSelfless .numa = .ok (some [[1]]) ∧
    List.countP (fun g => decide ((0 : Nat) ∈ g)) [[1]] = 0 := by
  exact ⟨rfl, rfl, by decide⟩

/-- C2 (amended): for every resolved locality grouping, regrouping is a
partition-sum — the grouped cell `(A, B)` accumulates exactly the sum over
all senders in group `A` and recipients in group `B` of the rank-level cell
(for both matrices, as `uint64` arithmetic, i.e. modulo `2^64`); and,
provided every rank's claim of the kind contains the rank itself (the
counterexample shows this is needed), every rank belongs to exactly one group
of the resolved grouping. -/
theorem c2_regroup_partition_sum (rls : List (List RankLocality)) (t : LocalityType)
    (gs : List (List Nat)) (hres : getLocalitiesFromRfs rls t = .ok (some gs))
    (HSELF : ∀ r, r < rls.length → ∀ l ∈ rls.getD r [], l.type = t → r ∈ l.peers) :
    (∀ (gm : GroupedMatrices) (A B : Nat),
      (gm.regroup gs).msgs_sent A B =
        (((gs.getD A []).map
          (fun s => ((gs.getD B []).map (fun r => gm.msgs_sent s r)).sum)).sum) % M64 ∧
      (gm.regroup gs).total_sent A B =
        (((gs.getD A []).map
          (fun s => ((gs.getD B []).map (fun r => gm.total_sent s r)).sum)).sum) % M64) ∧
    (∀ r, r < rls.length → gs.countP (fun g => decide (r ∈ g)) = 1) := by
  constructor
  · intro gm A B
    exact ⟨regroupCell_eq _ _ _, regroupCell_eq _ _ _⟩
  · intro r hr
    have hself' := claimPeersOf_self HSELF
    have hle : ∀ x, gs.countP (fun g => decide (x ∈ g)) ≤ 1 :=
      glLoop_count hself' (List.range rls.length) (fun _ => false) [] gs hres
        (fun g hg => absurd hg (List.not_mem_nil g))
        (fun g hg => absurd hg (List.not_mem_nil g))
        (fun x => by simp)
    obtain ⟨acc2, hout, -, -, hcover⟩ := glLoop_ok (List.range rls.length) (fun _ => false) []
      gs hres (fun x hx => by cases hx) (fun g hg => absurd hg (List.not_mem_nil g))
    obtain ⟨g, hg, hgc⟩ := hcover r (List.mem_range.mpr hr)
    have hrg : r ∈ g := hself' r g hgc
    have hpos : 0 < gs.countP (fun g => decide (r ∈ g)) := by
      rw [hout, List.Perm.countP_eq _ (sortList_perm pyListLe acc2)]
      exact List.countP_pos.mpr ⟨g, hg, decide_eq_true hrg⟩
    have := hle r
    omega
  
/-- C2 witness: the self-inclusive two-rank NUMA world resolves to `[[0, 1]]`;
the regrouped cell `(0, 0)` of a concrete matrix is the partition-sum and
rank 0 lies in exactly one group. -/
theorem c2_witness :
    (GroupedMatrices.regroup ⟨fun s r => s + 10 * r, fun s r => s * r⟩ [[0, 1]]).msgs_sent 0 0 =
      ((([0, 1] : List Nat).map
        (fun s => (([0, 1] : List Nat).map (fun r => s + 10 * r)).sum)).sum) % M64 ∧
    List.countP (fun g => decide ((0 : Nat) ∈ g)) [[0, 1]] = 1 := by
  obtain ⟨h1, h2⟩ := c2_regroup_partition_sum rlsPair .numa [[0, 1]] rfl (by decide)
  exact ⟨(h1 ⟨fun s r => s + 10 * r, fun s r => s * r⟩ 0 0).1, h2 0 (by decide)⟩

/-! ## C1/C10: pass-2 accumulation lemmas -/

theorem accTagsCD_cons (s r size : Nat) (cd : CompData) (tg : Int × Nat)
    (rest : List (Int × Nat)) :
    accTagsCD s r size cd (tg :: rest) =
      accTagsCD s r size
        { cd with
          total_bytes_sent := cd.total_bytes_sent + tg.2 * size
          total_sent := upd2 cd.total_sent s r ((cd.total_sent s r + tg.2 * size) % M64) }
        rest := rfl

theorem accTagsCD_msgs (s r size : Nat) :
    ∀ (tags : List (Int × Nat)) (cd : CompData),
      (accTagsCD s r size cd tags).msgs_sent = cd.msgs_sent := by
  intro tags
  induction tags with
  | nil => intro cd; rfl
  | cons tg rest ih => intro cd; rw [accTagsCD_cons, ih]

theorem accTagsCD_total_other (s r size : Nat) :
    ∀ (tags : List (Int × Nat)) (cd : CompData) (s' r' : Nat), ¬(s' = s ∧ r' = r) →
      (accTagsCD s r size cd tags).total_sent s' r' = cd.total_sent s' r' := by
  intro tags
  induction tags with
  | nil => intro cd s' r' _; rfl
  | cons tg rest ih =>
    intro cd s' r' h
    rw [accTagsCD_cons, ih _ s' r' h]
    simp [upd2, h]

theorem accTagsCD_total_cell (s r size : Nat) :
    ∀ (tags : List (Int × Nat)) (cd : CompData), cd.total_sent s r < M64 →
      (accTagsCD s r size cd tags).total_sent s r =
        (cd.total_sent s r + (tags.map (fun t => t.2 * size)).sum) % M64 := by
  intro tags
  induction tags with
  | nil => intro cd h; simp [accTagsCD, Nat.mod_eq_of_lt h]
  | cons tg rest ih =>
    intro cd h
    rw [accTagsCD_cons]
    have hcell : ({ cd with
        total_bytes_sent := cd.total_bytes_sent + tg.2 * size
        total_sent := upd2 cd.total_sent s r
          ((cd.total_sent s r + tg.2 * size) % M64) } : CompData).total_sent s r =
        (cd.total_sent s r + tg.2 * size) % M64 := by
      simp [upd2]
    rw [ih _ (by rw [hcell]; exact Nat.mod_lt _ (by decide)), hcell,
      List.map_cons, List.sum_cons, Nat.mod_add_mod, Nat.add_assoc]

theorem accMsgsCD_cons (s r : Nat) (cd : CompData) (m : CallsiteMessagesSizeEntry)
    (rest : List CallsiteMessagesSizeEntry) :
    accMsgsCD s r cd (m :: rest) = accMsgsCD s r (accTagsCD s r m.size cd m.tags) rest := rfl

theorem accMsgsCD_msgs (s r : Nat) :
    ∀ (msgs : List CallsiteMessagesSizeEntry) (cd : CompData),
      (accMsgsCD s r cd msgs).msgs_sent = cd.msgs_sent := by
  intro msgs
  induction msgs with
  | nil => intro cd; rfl
  | cons m rest ih => intro cd; rw [accMsgsCD_cons, ih, accTagsCD_msgs]

theorem accMsgsCD_total_other (s r : Nat) :
    ∀ (msgs : List CallsiteMessagesSizeEntry) (cd : CompData) (s' r' : Nat),
      ¬(s' = s ∧ r' = r) →
      (accMsgsCD s r cd msgs).total_sent s' r' = cd.total_sent s' r' := by
  intro msgs
  induction msgs with
  | nil => intro cd s' r' _; rfl
  | cons m rest ih =>
    intro cd s' r' h
    rw [accMsgsCD_cons, ih _ s' r' h, accTagsCD_total_other _ _ _ _ _ s' r' h]

theorem accMsgsCD_total_cell (s r : Nat) :
    ∀ (msgs : List CallsiteMessagesSizeEntry) (cd : CompData), cd.total_sent s r < M64 →
      (accMsgsCD s r cd msgs).total_sent s r =
        (cd.total_sent s r +
          (msgs.map (fun m => (m.tags.map (fun t => t.2 * m.size)).sum)).sum) % M64 := by
  intro msgs
  induction msgs with
  | nil => intro cd h; simp [accMsgsCD, Nat.mod_eq_of_lt h]
  | cons m rest ih =>
    intro cd h
    rw [accMsgsCD_cons]
    have hcell := accTagsCD_total_cell s r m.size m.tags cd h
    rw [ih _ (by rw [hcell]; exact Nat.mod_lt _ (by decide)), hcell,
      List.map_cons, List.sum_cons, Nat.mod_add_mod, Nat.add_assoc]

theorem accCallsitesCD_cons (s r : Nat) (cd : CompData) (c : CallsiteMessageData)
    (rest : List CallsiteMessageData) :
    accCallsitesCD s r cd (c :: rest) = accCallsitesCD s r (accMsgsCD s r cd c.msgs) rest := rfl

theorem accCallsitesCD_msgs (s r : Nat) :
    ∀ (cs : List CallsiteMessageData) (cd : CompData),
      (accCallsitesCD s r cd cs).msgs_sent = cd.msgs_sent := by
  intro cs
  induction cs with
  | nil => intro cd; rfl
  | cons c rest ih => intro cd; rw [accCallsitesCD_cons, ih, accMsgsCD_msgs]

theorem accCallsitesCD_total_other (s r : Nat) :
    ∀ (cs : List CallsiteMessageData) (cd : CompData) (s' r' : Nat), ¬(s' = s ∧ r' = r) →
      (accCallsitesCD s r cd cs).total_sent s' r' = cd.total_sent s' r' := by
  intro cs
  induction cs with
  | nil => intro cd s' r' _; rfl
  | cons c rest ih =>
    intro cd s' r' h
    rw [accCallsitesCD_cons, ih _ s' r' h, accMsgsCD_total_other _ _ _ _ s' r' h]

theorem accCallsitesCD_total_cell (s r : Nat) :
    ∀ (cs : List CallsiteMessageData) (cd : CompData), cd.total_sent s r < M64 →
      (accCallsitesCD s r cd cs).total_sent s r =
        (cd.total_sent s r +
          (cs.map (fun c =>
            (c.msgs.map (fun m => (m.tags.map (fun t => t.2 * m.size)).sum)).sum)).sum) % M64 := by
  intro cs
  induction cs with
  | nil => intro cd h; simp [accCallsitesCD, Nat.mod_eq_of_lt h]
  | cons c rest ih =>
    intro cd h
    rw [accCallsitesCD_cons]
    have hcell := accMsgsCD_total_cell s r c.msgs cd h
    rw [ih _ (by rw [hcell]; exact Nat.mod_lt _ (by decide)), hcell,
      List.map_cons, List.sum_cons, Nat.mod_add_mod, Nat.add_assoc]

theorem processPeer_ok_spec {n : Nat} {comp : String} {sender : Nat} {cd : CompData}
    {entry : Nat × RankPeer} {cd' : CompData}
    (h : processPeer n comp sender cd entry = .ok cd') :
    entry.1 < n ∧
    (∀ s' r', ¬(s' = sender ∧ r' = entry.1) →
      cd'.total_sent s' r' = cd.total_sent s' r' ∧ cd'.msgs_sent s' r' = cd.msgs_sent s' r') ∧
    (cd.total_sent sender entry.1 < M64 →
      cd'.total_sent sender entry.1 =
        (cd.total_sent sender entry.1 + peerBytes entry.2 comp) % M64) ∧
    (∃ cnt, lookupA entry.2.sent_count comp = some cnt ∧
      cd'.msgs_sent sender entry.1 = cnt % M64) := by
  unfold processPeer at h
  split at h
  · next hlt =>
      cases hl : lookupA entry.2.sent_count comp with
      | none => rw [hl] at h; cases h
      | some cnt =>
        rw [hl] at h
        dsimp only at h
        injection h with h2
        subst h2
        refine ⟨hlt, ?_, ?_, cnt, rfl, ?_⟩
        · intro s' r' hne
          constructor
          · exact accCallsitesCD_total_other sender entry.1 _ cd s' r' hne
          · rw [accCallsitesCD_msgs]
            simp [upd2, hne]
        · intro hb
          exact accCallsitesCD_total_cell sender entry.1 _ cd hb
        · rw [accCallsitesCD_msgs]
          simp [upd2]
  · cases h

theorem foldPeers_sender_other {n : Nat} {comp : String} {sender : Nat} :
    ∀ (entries : List (Nat × RankPeer)) (cd cd' : CompData),
      entries.foldlM (processPeer n comp sender) cd = .ok cd' →
      ∀ s' r', s' ≠ sender →
        cd'.total_sent s' r' = cd.total_sent s' r' ∧
        cd'.msgs_sent s' r' = cd.msgs_sent s' r' := by
  intro entries
  induction entries with
  | nil =>
    intro cd cd' h s' r' _
    rw [List.foldlM_nil] at h
    injection h with h2
    subst h2
    exact ⟨rfl, rfl⟩
  | cons e rest ih =>
    intro cd cd' h s' r' hne
    rw [List.foldlM_cons] at h
    cases hp : processPeer n comp sender cd e with
    | error err => rw [hp] at h; cases h
    | ok cd1 =>
      rw [hp] at h
      obtain ⟨-, hother, -, -⟩ := processPeer_ok_spec hp
      obtain ⟨ht, hm⟩ := ih cd1 cd' h s' r' hne
      obtain ⟨ht2, hm2⟩ := hother s' r' (fun hc => hne hc.1)
      exact ⟨ht.trans ht2, hm.trans hm2⟩

theorem foldPeers_other_key {n : Nat} {comp : String} {sender : Nat} :
    ∀ (entries : List (Nat × RankPeer)) (cd cd' : CompData) (r : Nat),
      entries.foldlM (processPeer n comp sender) cd = .ok cd' →
      (∀ p ∈ entries, p.1 ≠ r) →
      cd'.total_sent sender r = cd.total_sent sender r ∧
        cd'.msgs_sent sender r = cd.msgs_sent sender r := by
  intro entries
  induction entries with
  | nil =>
    intro cd cd' r h _
    rw [List.foldlM_nil] at h
    injection h with h2
    subst h2
    exact ⟨rfl, rfl⟩
  | cons e rest ih =>
    intro cd cd' r h hk
    rw [List.foldlM_cons] at h
    cases hp : processPeer n comp sender cd e with
    | error err => rw [hp] at h; cases h
    | ok cd1 =>
      rw [hp] at h
      obtain ⟨-, hother, -, -⟩ := processPeer_ok_spec hp
      obtain ⟨ht2, hm2⟩ := hother sender r
        (fun hc => hk e (List.mem_cons_self e rest) hc.2.symm)
      obtain ⟨ht, hm⟩ := ih cd1 cd' r h (fun p hp2 => hk p (List.mem_cons_of_mem e hp2))
      exact ⟨ht.trans ht2, hm.trans hm2⟩

theorem foldPeers_total_cell {n : Nat} {comp : String} {sender : Nat} :
    ∀ (entries : List (Nat × RankPeer)) (cd cd' : CompData) (r : Nat),
      entries.foldlM (processPeer n comp sender) cd = .ok cd' →
      (entries.map Prod.fst).Nodup →
      cd.total_sent sender r < M64 →
      cd'.total_sent sender r =
        (cd.total_sent sender r +
          ((entries.filter (fun p => decide (p.1 = r))).map
            (fun p => peerBytes p.2 comp)).sum) % M64 := by
  intro entries
  induction entries with
  | nil =>
    intro cd cd' r h _ hb
    rw [List.foldlM_nil] at h
    injection h with h2
    subst h2
    simp [Nat.mod_eq_of_lt hb]
  | cons e rest ih =>
    intro cd cd' r h hnd hb
    rw [List.foldlM_cons] at h
    cases hp : processPeer n comp sender cd e with
    | error err => rw [hp] at h; cases h
    | ok cd1 =>
      rw [hp] at h
      obtain ⟨-, hother, hcell, -⟩ := processPeer_ok_spec hp
      rw [List.map_cons, List.nodup_cons] at hnd
      by_cases hke : e.1 = r
      · have hcd1 : cd1.total_sent sender r =
            (cd.total_sent sender r + peerBytes e.2 comp) % M64 := by
          rw [← hke]
          exact hcell (by rw [hke]; exact hb)
        have hrest : ∀ p ∈ rest, p.1 ≠ r := by
          intro p hp2 hpr
          apply hnd.1
          rw [hke, ← hpr]
          exact List.mem_map_of_mem Prod.fst hp2
        obtain ⟨ht, -⟩ := foldPeers_other_key rest cd1 cd' r h hrest
        rw [ht, hcd1, List.filter_cons, if_pos (by simpa using hke)]
        have hfil : rest.filter (fun p => decide (p.1 = r)) = [] := by
          rw [List.filter_eq_nil]
          intro p hp2
          simpa using hrest p hp2
        rw [hfil]
        simp
      · have hcd1 : cd1.total_sent sender r = cd.total_sent sender r :=
          (hother sender r (fun hc => hke hc.2.symm)).1
        rw [ih cd1 cd' r h hnd.2 (by rw [hcd1]; exact hb), hcd1,
          List.filter_cons, if_neg (by simpa using hke)]

theorem foldPeers_msgs_cell {n : Nat} {comp : String} {sender : Nat} :
    ∀ (entries : List (Nat × RankPeer)) (cd cd' : CompData) (r : Nat),
      entries.foldlM (processPeer n comp sender) cd = .ok cd' →
      (entries.map Prod.fst).Nodup →
      cd'.msgs_sent sender r =
        (match lookupA entries r with
          | some peer => ((lookupA peer.sent_count comp).getD 0) % M64
          | none => cd.msgs_sent sender r) := by
  intro entries
  induction entries with
  | nil =>
    intro cd cd' r h _
    rw [List.foldlM_nil] at h
    injection h with h2
    subst h2
    rfl
  | cons e rest ih =>
    intro cd cd' r h hnd
    rw [List.foldlM_cons] at h
    cases hp : processPeer n comp sender cd e with
    | error err => rw [hp] at h; cases h
    | ok cd1 =>
      rw [hp] at h
      obtain ⟨-, hother, -, cnt, hcnt, hmc⟩ := processPeer_ok_spec hp
      rw [List.map_cons, List.nodup_cons] at hnd
      by_cases hke : e.1 = r
      · have hrest : ∀ p ∈ rest, p.1 ≠ r := by
          intro p hp2 hpr
          apply hnd.1
          rw [hke, ← hpr]
          exact List.mem_map_of_mem Prod.fst hp2
        obtain ⟨-, hm⟩ := foldPeers_other_key rest cd1 cd' r h hrest
        have hlk : lookupA (e :: rest) r = some e.2 := by
          obtain ⟨k, pr⟩ := e
          rw [lookupA, if_pos hke]
        rw [hm, hlk]
        dsimp only
        rw [← hke, hmc, hcnt]
        rfl
      · have hlk : lookupA (e :: rest) r = lookupA rest r := by
          obtain ⟨k, pr⟩ := e
          rw [lookupA, if_neg hke]
        rw [ih cd1 cd' r h hnd.2, hlk,
          (hother sender r (fun hc => hke hc.2.symm)).2]

theorem processComp_ok_inv {n : Nat} {rf : RankFile} {comp : String} {cd cd' : CompData}
    (h : processComp n rf comp cd = .ok cd') :
    rf.general.own_rank < n ∧
    rf.peers.foldlM (processPeer n comp rf.general.own_rank) cd = .ok cd' := by
  unfold processComp at h
  split at h
  · exact ⟨by assumption, h⟩
  · cases h

theorem pass2Rank_at {n : Nat} {rf : RankFile} :
    ∀ (comps : List String) (d d' : String → CompData),
      pass2Rank n comps rf d = .ok d' → comps.Nodup →
      (∀ comp ∈ comps, processComp n rf comp (d comp) = .ok (d' comp)) ∧
      (∀ comp, comp ∉ comps → d' comp = d comp) := by
  intro comps
  induction comps with
  | nil =>
    intro d d' h _
    unfold pass2Rank at h
    rw [List.foldlM_nil] at h
    injection h with h2
    subst h2
    exact ⟨fun comp hc => absurd hc (List.not_mem_nil comp), fun _ _ => rfl⟩
  | cons c cs ih =>
    intro d d' h hnd
    rw [List.nodup_cons] at hnd
    unfold pass2Rank at h
    rw [List.foldlM_cons] at h
    cases hc : processComp n rf c (d c) with
    | error e => rw [hc] at h; dsimp only at h; cases h
    | ok cd =>
      rw [hc] at h
      dsimp only at h
      obtain ⟨hin, hout⟩ := ih (fun c' => if c' = c then cd else d c') d' h hnd.2
      constructor
      · intro comp hcm
        rcases List.mem_cons.mp hcm with rfl | hcs
        · rw [hout comp hnd.1, if_pos rfl]
          exact hc
        · have hne : comp ≠ c := fun he => hnd.1 (he ▸ hcs)
          have := hin comp hcs
          rw [if_neg hne] at this
          exact this
      · intro comp hno
        have h1 : comp ∉ cs := fun hx => hno (List.mem_cons_of_mem c hx)
        have h2 : comp ≠ c := fun he => hno (he ▸ List.mem_cons_self c cs)
        rw [hout comp h1, if_neg h2]

theorem pass2_loop_cells {fs : Nat → RankFile} {n : Nat} {comps : List String}
    (hcomps : comps.Nodup) (comp : String) (hcm : comp ∈ comps) (s : Nat)
    (hnd : ((fs s).peers.map Prod.fst).Nodup) (hos : (fs s).general.own_rank = s) :
    ∀ (ranks : List Nat) (d0 d' : String → CompData),
      ranks.foldlM (fun d rnk => pass2Rank n comps (fs rnk) d) d0 = .ok d' →
      (∀ rnk ∈ ranks, (fs rnk).general.own_rank = rnk) →
      ranks.Nodup →
      ∀ r, (d0 comp).total_sent s r < M64 →
        (s ∈ ranks →
          (d' comp).total_sent s r =
            ((d0 comp).total_sent s r + bytesTo (fs s) comp r) % M64 ∧
          (d' comp).msgs_sent s r =
            (match lookupA (fs s).peers r with
              | some peer => ((lookupA peer.sent_count comp).getD 0) % M64
              | none => (d0 comp).msgs_sent s r)) ∧
        (s ∉ ranks →
          (d' comp).total_sent s r = (d0 comp).total_sent s r ∧
          (d' comp).msgs_sent s r = (d0 comp).msgs_sent s r) := by
  intro ranks
  induction ranks with
  | nil =>
    intro d0 d' h _ _ r _
    rw [List.foldlM_nil] at h
    injection h with h2
    subst h2
    exact ⟨fun hmem => absurd hmem (List.not_mem_nil s), fun _ => ⟨rfl, rfl⟩⟩
  | cons rnk rest ih =>
    intro d0 d' h hown hndr r hb
    rw [List.foldlM_cons] at h
    rw [List.nodup_cons] at hndr
    cases hp : pass2Rank n comps (fs rnk) d0 with
    | error e => rw [hp] at h; cases h
    | ok d1 =>
      rw [hp] at h
      obtain ⟨hat, -⟩ := pass2Rank_at comps d0 d1 hp hcomps
      have hpc := hat comp hcm
      obtain ⟨-, hfold⟩ := processComp_ok_inv hpc
      by_cases hrs : rnk = s
      · subst hrs
        rw [hos] at hfold
        have htc := foldPeers_total_cell (fs rnk).peers (d0 comp) (d1 comp) r hfold hnd hb
        have hmc := foldPeers_msgs_cell (fs rnk).peers (d0 comp) (d1 comp) r hfold hnd
        have hd1b : (d1 comp).total_sent rnk r < M64 := by
          rw [htc]
          exact Nat.mod_lt _ (by decide)
        obtain ⟨-, hrest⟩ := ih d1 d' h
          (fun x hx => hown x (List.mem_cons_of_mem rnk hx)) hndr.2 r hd1b
        obtain ⟨ht2, hm2⟩ := hrest hndr.1
        refine ⟨fun _ => ⟨?_, ?_⟩, fun hno => absurd (List.mem_cons_self rnk rest) hno⟩
        · rw [ht2, htc, bytesTo]
        · rw [hm2, hmc]
      · have hsender : (fs rnk).general.own_rank ≠ s := by
          rw [hown rnk (List.mem_cons_self rnk rest)]
          exact hrs
        obtain ⟨ht1, hm1⟩ := foldPeers_sender_other (fs rnk).peers (d0 comp) (d1 comp)
          hfold s r (fun he => hsender he.symm)
        obtain ⟨hin, hout⟩ := ih d1 d' h
          (fun x hx => hown x (List.mem_cons_of_mem rnk hx)) hndr.2 r (by rw [ht1]; exact hb)
        constructor
        · intro hmem
          rcases List.mem_cons.mp hmem with rfl | hmem2
          · exact absurd rfl hrs
          · obtain ⟨ht2, hm2⟩ := hin hmem2
            refine ⟨by rw [ht2, ht1], ?_⟩
            rw [hm2, hm1]
        · intro hno
          have : s ∉ rest := fun hx => hno (List.mem_cons_of_mem rnk hx)
          obtain ⟨ht2, hm2⟩ := hout this
          exact ⟨ht2.trans ht1, hm2.trans hm1⟩

theorem pass1Loop_own {fs : Nat → RankFile} :
    ∀ (ranks : List Nat) (wt : Nat) (comps : List String)
      (locs : List (List RankLocality)) (p1 : Pass1Out),
      pass1Loop fs ranks wt comps locs = .ok p1 →
      ∀ r ∈ ranks, (fs r).general.own_rank = r := by
  intro ranks
  induction ranks with
  | nil => intro _ _ _ _ _ r hr; cases hr
  | cons rk rest ih =>
    intro wt comps locs p1 h r hr
    rw [pass1Loop] at h
    split at h
    · rcases List.mem_cons.mp hr with rfl | hr2
      · assumption
      · exact ih _ _ _ _ h r hr2
    · cases h

theorem insertNew_nodup {l : List String} {s : String} (h : l.Nodup) :
    (insertNew l s).Nodup := by
  unfold insertNew
  split
  · exact h
  · next hno => simp [List.nodup_append, h, hno]

theorem foldl_insertNew_nodup : ∀ (keys : List String) (l : List String), l.Nodup →
    (keys.foldl insertNew l).Nodup := by
  intro keys
  induction keys with
  | nil => intro l h; exact h
  | cons k rest ih => intro l h; exact ih _ (insertNew_nodup h)

theorem addComponents_nodup {acc : List String} (h : acc.Nodup) (peer : RankPeer) :
    (addComponents acc peer).Nodup := by
  unfold addComponents
  exact foldl_insertNew_nodup _ _ (foldl_insertNew_nodup _ _ h)

theorem foldl_addComponents_nodup :
    ∀ (entries : List (Nat × RankPeer)) (acc : List String), acc.Nodup →
      (entries.foldl (fun a p => addComponents a p.2) acc).Nodup := by
  intro entries
  induction entries with
  | nil => intro acc h; exact h
  | cons e rest ih => intro acc h; exact ih _ (addComponents_nodup h e.2)

theorem pass1Loop_nodup {fs : Nat → RankFile} :
    ∀ (ranks : List Nat) (wt : Nat) (comps : List String)
      (locs : List (List RankLocality)) (p1 : Pass1Out),
      pass1Loop fs ranks wt comps locs = .ok p1 → comps.Nodup →
      p1.components.Nodup := by
  intro ranks
  induction ranks with
  | nil =>
    intro wt comps locs p1 h hnd
    rw [pass1Loop] at h
    injection h with h2
    subst h2
    exact hnd
  | cons rk rest ih =>
    intro wt comps locs p1 h hnd
    rw [pass1Loop] at h
    split at h
    · exact ih _ _ _ _ h (foldl_addComponents_nodup _ _ hnd)
    · cases h

theorem parseRanks_inv {fs : Nat → RankFile} {n : Nat} {w : World}
    (h : parseRanks fs n = .ok w) :
    ∃ p1, pass1Loop fs (List.range n) 0 [] [] = .ok p1 ∧
      w.components = p1.components ∧ pass2 fs n p1.components = .ok w.data := by
  unfold parseRanks at h
  cases h1 : pass1Loop fs (List.range n) 0 [] [] with
  | error e => rw [h1] at h; cases h
  | ok p1 =>
    rw [h1] at h
    dsimp only at h
    cases h2 : getLocalitiesFromRfs p1.locs .node with
    | error e => rw [h2] at h; cases h
    | ok nodeL =>
      rw [h2] at h
      dsimp only at h
      cases h3 : getLocalitiesFromRfs p1.locs .numa with
      | error e => rw [h3] at h; cases h
      | ok numaL =>
        rw [h3] at h
        dsimp only at h
        cases h4 : getLocalitiesFromRfs p1.locs .socket with
        | error e => rw [h4] at h; cases h
        | ok socketL =>
          rw [h4] at h
          dsimp only at h
          cases h5 : getLocalitiesFromRfs p1.locs .core with
          | error e => rw [h5] at h; cases h
          | ok coreL =>
            rw [h5] at h
            dsimp only at h
            cases h6 : pass2 fs n p1.components with
            | error e => rw [h6] at h; cases h
            | ok data =>
              rw [h6] at h
              dsimp only at h
              injection h with h7
              subst h7
              exact ⟨p1, rfl, rfl, h6⟩

theorem foldlM_ok_elem {α σ ε : Type} {f : σ → α → Except ε σ} :
    ∀ (l : List α) (st st' : σ), l.foldlM f st = .ok st' →
      ∀ x ∈ l, ∃ s1 s2, f s1 x = .ok s2 := by
  intro l
  induction l with
  | nil => intro st st' _ x hx; cases hx
  | cons a rest ih =>
    intro st st' h x hx
    rw [List.foldlM_cons] at h
    cases ha : f st a with
    | error e => rw [ha] at h; cases h
    | ok s2 =>
      rw [ha] at h
      rcases List.mem_cons.mp hx with rfl | hx2
      · exact ⟨st, s2, ha⟩
      · exact ih s2 st' h x hx2

/-- C1: after aggregation, for every component `comp` of a successfully built
world and every sender `s` (with well-formed peer map) and recipient `r`, the
bytes cell `total_sent[s][r]` holds exactly the sum over `s`'s peer record
for `r` of `size × occurrences` over its callsite/size/tag entries for that
component (as `uint64`, i.e. modulo `2^64`), while the message-count cell
`msgs_sent[s][r]` is set directly from the peer record's declared
per-component `sent_count` — not recomputed from the callsite entries, so the
two may legitimately diverge. -/
theorem c1_bytes_accumulated_msgs_declared (fs : Nat → RankFile) (w : World)
    (h : worldFromFs fs = .ok w) (comp : String) (hc : comp ∈ w.components)
    (s : Nat) (hs : s < (fs 0).general.num_procs) (r : Nat)
    (hnd : ((fs s).peers.map Prod.fst).Nodup) :
    (w.data comp).total_sent s r = (bytesTo (fs s) comp r) % M64 ∧
    (w.data comp).msgs_sent s r = (declaredTo (fs s) comp r) % M64 := by
  obtain ⟨p1, hp1, hcomp, hp2⟩ := parseRanks_inv h
  rw [hcomp] at hc
  have hown : ∀ rnk ∈ List.range (fs 0).general.num_procs,
      (fs rnk).general.own_rank = rnk :=
    fun rnk hr => pass1Loop_own _ _ _ _ _ hp1 rnk hr
  have hcompsnd : p1.components.Nodup := pass1Loop_nodup _ _ _ _ _ hp1 List.nodup_nil
  have hos : (fs s).general.own_rank = s := hown s (List.mem_range.mpr hs)
  obtain ⟨hin, -⟩ := pass2_loop_cells hcompsnd comp hc s hnd hos
    (List.range (fs 0).general.num_procs) (fun _ => CompData.empty) w.data hp2 hown
    (List.nodup_range _) r (by show (0 : Nat) < M64; decide)
  obtain ⟨ht, hm⟩ := hin (List.mem_range.mpr hs)
  constructor
  · rw [ht]
    show (0 + bytesTo (fs s) comp r) % M64 = _
    rw [Nat.zero_add]
  · rw [hm]
    unfold declaredTo
    cases lookupA (fs s).peers r with
    | some peer => rfl
    | none => rfl

/-- C1 witness: the §8 scenario — rank 0 sends 3×64-byte and 2×128-byte
messages to rank 1 under component `"mtl"`, declared count 5; the byte cell
is `448 = 3·64 + 2·128` and the message cell is the declared `5` (not the
recomputed `3 + 2`). -/
theorem c1_witness :
    ∃ w, worldFromFs fs8 = .ok w ∧
      (w.data "mtl").total_sent 0 1 = 448 ∧ (w.data "mtl").msgs_sent 0 1 = 5 := by
  cases h : worldFromFs fs8 with
  | error e =>
    have hok : (worldFromFs fs8).isOk = true := rfl
    rw [h] at hok
    cases hok
  | ok w =>
    have hcw : exceptComps (worldFromFs fs8) = w.components := by rw [h]; rfl
    have hmem : "mtl" ∈ w.components := by
      rw [← hcw]
      decide
    obtain ⟨h1, h2⟩ := c1_bytes_accumulated_msgs_declared fs8 w h "mtl" hmem 0 (by decide)
      1 (by decide)
    refine ⟨w, rfl, ?_, ?_⟩
    · rw [h1]
      rfl
    · rw [h2]
      rfl

/-- C10: pass-2 accumulation indexes every peer record's `sent_count` map
with every discovered component with no default, so on a successfully
constructed world every peer record of every rank carries a `sent_count`
entry for every discovered component (a missing entry would have raised a
`KeyError` during construction instead of being treated as zero). -/
theorem c10_sent_count_total_on_success (fs : Nat → RankFile) (w : World)
    (h : worldFromFs fs = .ok w) :
    ∀ rank, rank < (fs 0).general.num_procs → ∀ p ∈ (fs rank).peers,
      ∀ comp ∈ w.components, (lookupA p.2.sent_count comp).isSome = true := by
  obtain ⟨p1, hp1, hcomp, hp2⟩ := parseRanks_inv h
  intro rank hrank p hp comp hc
  rw [hcomp] at hc
  obtain ⟨d1, d2, hstep⟩ := foldlM_ok_elem (List.range (fs 0).general.num_procs) _ w.data
    hp2 rank (List.mem_range.mpr hrank)
  obtain ⟨e1, e2, hstep2⟩ := foldlM_ok_elem p1.components _ _ hstep comp hc
  cases hpc : processComp (fs 0).general.num_procs (fs rank) comp (e1 comp) with
  | error e => rw [hpc] at hstep2; cases hstep2
  | ok cd =>
    obtain ⟨-, hfold⟩ := processComp_ok_inv hpc
    obtain ⟨c1, c2, hpp⟩ := foldlM_ok_elem (fs rank).peers _ _ hfold p hp
    obtain ⟨-, -, -, cnt, hcnt, -⟩ := processPeer_ok_spec hpp
    rw [hcnt]
    rfl

/-- C10 witness: the §8 world builds successfully and its only peer record
indeed carries a `sent_count` entry for the discovered component `"mtl"`. -/
theorem c10_witness :
    ∃ w, worldFromFs fs8 = .ok w ∧ (lookupA peer8.sent_count "mtl").isSome = true := by
  cases h : worldFromFs fs8 with
  | error e =>
    have hok : (worldFromFs fs8).isOk = true := rfl
    rw [h] at hok
    cases hok
  | ok w =>
    have hcw : exceptComps (worldFromFs fs8) = w.components := by rw [h]; rfl
    have hmem : "mtl" ∈ w.components := by
      rw [← hcw]
      decide
    exact ⟨w, rfl, c10_sent_count_total_on_success fs8 w h 0 (by decide) (1, peer8)
      (by decide) "mtl" hmem⟩

/-! ## C9: per-rank size tables -/

theorem foldl_pres {α β : Type} {P : β → Prop} {f : β → α → β}
    (hf : ∀ acc a, P acc → P (f acc a)) :
    ∀ (l : List α) (acc : β), P acc → P (l.foldl f acc) := by
  intro l
  induction l with
  | nil => intro acc h; exact h
  | cons a rest ih => intro acc h; exact ih _ (hf acc a h)

theorem sizeStep_nodup (acc : List Nat) (m : CallsiteMessagesSizeEntry) (h : acc.Nodup) :
    (if m.size ∈ acc then acc else acc ++ [m.size]).Nodup := by
  split
  · exact h
  · next hno => simp [List.nodup_append, h, hno]

theorem sizeStep_mem {x : Nat} (acc : List Nat) (m : CallsiteMessagesSizeEntry)
    (h : x ∈ acc) : x ∈ (if m.size ∈ acc then acc else acc ++ [m.size]) := by
  split
  · exact h
  · exact List.mem_append_left _ h

theorem collectSizes_nodup (rf : RankFile) (comp : String) : (collectSizes rf comp).Nodup := by
  unfold collectSizes
  refine foldl_pres ?_ rf.peers [] List.nodup_nil
  intro acc p hacc
  refine foldl_pres ?_ _ acc hacc
  intro acc2 cs hacc2
  refine foldl_pres ?_ _ acc2 hacc2
  intro acc3 m hacc3
  exact sizeStep_nodup acc3 m hacc3

theorem mem_foldl_msgs (m : CallsiteMessagesSizeEntry) :
    ∀ (msgs : List CallsiteMessagesSizeEntry) (acc : List Nat), m ∈ msgs →
      m.size ∈ msgs.foldl
        (fun acc m => if m.size ∈ acc then acc else acc ++ [m.size]) acc := by
  intro msgs
  induction msgs with
  | nil => intro acc h; cases h
  | cons m0 rest ih =>
    intro acc h
    rw [List.foldl_cons]
    rcases List.mem_cons.mp h with rfl | h2
    · refine foldl_pres (fun a x ha => sizeStep_mem a x ha) rest _ ?_
      split
      · assumption
      · exact List.mem_append_right _ (List.mem_singleton.mpr rfl)
    · exact ih _ h2

theorem mem_foldl_callsites (m : CallsiteMessagesSizeEntry) (cs : CallsiteMessageData) :
    ∀ (csl : List CallsiteMessageData) (acc : List Nat), cs ∈ csl → m ∈ cs.msgs →
      m.size ∈ csl.foldl
        (fun acc cs =>
          cs.msgs.foldl (fun acc m => if m.size ∈ acc then acc else acc ++ [m.size]) acc)
        acc := by
  intro csl
  induction csl with
  | nil => intro acc h _; cases h
  | cons cs0 rest ih =>
    intro acc h hm
    rw [List.foldl_cons]
    rcases List.mem_cons.mp h with rfl | h2
    · refine foldl_pres ?_ rest _ (mem_foldl_msgs m cs.msgs acc hm)
      intro acc2 cs2 hacc2
      exact foldl_pres (fun a x ha => sizeStep_mem a x ha) cs2.msgs acc2 hacc2
    · exact ih _ h2 hm

theorem mem_collect_gen (comp : String) (cs : CallsiteMessageData)
    (m : CallsiteMessagesSizeEntry) (hm : m ∈ cs.msgs) :
    ∀ (entries : List (Nat × RankPeer)) (acc : List Nat) (p : Nat × RankPeer),
      p ∈ entries → cs ∈ (lookupA p.2.sent_messages comp).getD [] →
      m.size ∈ entries.foldl
        (fun acc p =>
          (((lookupA p.2.sent_messages comp).getD [])).foldl
            (fun acc cs =>
              cs.msgs.foldl (fun acc m => if m.size ∈ acc then acc else acc ++ [m.size]) acc)
            acc)
        acc := by
  intro entries
  induction entries with
  | nil => intro acc p h _; cases h
  | cons p0 rest ih =>
    intro acc p hp hcs
    rw [List.foldl_cons]
    rcases List.mem_cons.mp hp with rfl | h2
    · refine foldl_pres ?_ rest _ (mem_foldl_callsites m cs _ acc hcs hm)
      intro acc2 p2 hacc2
      refine foldl_pres ?_ _ acc2 hacc2
      intro acc3 cs2 hacc3
      exact foldl_pres (fun a x ha => sizeStep_mem a x ha) cs2.msgs acc3 hacc3
    · exact ih _ p h2 hcs

theorem mem_collectSizes {rf : RankFile} {comp : String} {p : Nat × RankPeer}
    {cs : CallsiteMessageData} {m : CallsiteMessagesSizeEntry}
    (hp : p ∈ rf.peers) (hcs : cs ∈ (lookupA p.2.sent_messages comp).getD [])
    (hm : m ∈ cs.msgs) : m.size ∈ collectSizes rf comp := by
  unfold collectSizes
  exact mem_collect_gen comp cs m hm rf.peers [] p hp hcs

theorem foldl_msgs_src :
    ∀ (msgs : List CallsiteMessagesSizeEntry) (acc : List Nat) (x : Nat),
      x ∈ msgs.foldl (fun acc m => if m.size ∈ acc then acc else acc ++ [m.size]) acc →
      x ∈ acc ∨ ∃ m ∈ msgs, m.size = x := by
  intro msgs
  induction msgs with
  | nil => intro acc x h; exact Or.inl h
  | cons m0 rest ih =>
    intro acc x h
    rw [List.foldl_cons] at h
    rcases ih _ x h with h1 | h1
    · split at h1
      · exact Or.inl h1
      · rcases List.mem_append.mp h1 with h2 | h2
        · exact Or.inl h2
        · exact Or.inr ⟨m0, List.mem_cons_self m0 rest, (List.mem_singleton.mp h2).symm⟩
    · obtain ⟨m, hm, hx⟩ := h1
      exact Or.inr ⟨m, List.mem_cons_of_mem m0 hm, hx⟩

theorem foldl_callsites_src :
    ∀ (csl : List CallsiteMessageData) (acc : List Nat) (x : Nat),
      x ∈ csl.foldl
        (fun acc cs =>
          cs.msgs.foldl (fun acc m => if m.size ∈ acc then acc else acc ++ [m.size]) acc)
        acc →
      x ∈ acc ∨ ∃ cs ∈ csl, ∃ m ∈ cs.msgs, m.size = x := by
  intro csl
  induction csl with
  | nil => intro acc x h; exact Or.inl h
  | cons cs0 rest ih =>
    intro acc x h
    rw [List.foldl_cons] at h
    rcases ih _ x h with h1 | h1
    · rcases foldl_msgs_src cs0.msgs acc x h1 with h2 | h2
      · exact Or.inl h2
      · obtain ⟨m, hm, hx⟩ := h2
        exact Or.inr ⟨cs0, List.mem_cons_self cs0 rest, m, hm, hx⟩
    · obtain ⟨cs, hcs, m, hm, hx⟩ := h1
      exact Or.inr ⟨cs, List.mem_cons_of_mem cs0 hcs, m, hm, hx⟩

theorem collectSizes_src {rf : RankFile} {comp : String} {x : Nat}
    (h : x ∈ collectSizes rf comp) :
    ∃ p ∈ rf.peers, ∃ cs ∈ (lookupA p.2.sent_messages comp).getD [],
      ∃ m ∈ cs.msgs, m.size = x := by
  unfold collectSizes at h
  have hgen : ∀ (entries : List (Nat × RankPeer)) (acc : List Nat),
      x ∈ entries.foldl
        (fun acc p =>
          (((lookupA p.2.sent_messages comp).getD [])).foldl
            (fun acc cs =>
              cs.msgs.foldl (fun acc m => if m.size ∈ acc then acc else acc ++ [m.size]) acc)
            acc)
        acc →
      x ∈ acc ∨ ∃ p ∈ entries, ∃ cs ∈ (lookupA p.2.sent_messages comp).getD [],
        ∃ m ∈ cs.msgs, m.size = x := by
    intro entries
    induction entries with
    | nil => intro acc h2; exact Or.inl h2
    | cons p0 rest ih =>
      intro acc h2
      rw [List.foldl_cons] at h2
      rcases ih _ h2 with h1 | h1
      · rcases foldl_callsites_src _ acc x h1 with h3 | h3
        · exact Or.inl h3
        · obtain ⟨cs, hcs, m, hm, hx⟩ := h3
          exact Or.inr ⟨p0, List.mem_cons_self p0 rest, cs, hcs, m, hm, hx⟩
      · obtain ⟨p, hp, cs, hcs, m, hm, hx⟩ := h1
        exact Or.inr ⟨p, List.mem_cons_of_mem p0 hp, cs, hcs, m, hm, hx⟩
  rcases hgen rf.peers [] h with h1 | h1
  · cases h1
  · exact h1

theorem insertSorted_pairwise (x : Nat) :
    ∀ l : List Nat, List.Pairwise (fun a b => a ≤ b) l →
      List.Pairwise (fun a b => a ≤ b) (insertSorted (fun a b => decide (a ≤ b)) x l) := by
  intro l
  induction l with
  | nil => intro _; exact List.pairwise_singleton _ x
  | cons y ys ih =>
    intro h
    rw [insertSorted]
    split
    · next hle =>
      have hxy : x ≤ y := of_decide_eq_true hle
      refine List.pairwise_cons.mpr ⟨?_, h⟩
      intro z hz
      rcases List.mem_cons.mp hz with rfl | hz2
      · exact hxy
      · exact le_trans hxy ((List.pairwise_cons.mp h).1 z hz2)
    · next hgt =>
      have hyx : y ≤ x := le_of_not_le (fun hc => hgt (decide_eq_true hc))
      obtain ⟨hy, hys⟩ := List.pairwise_cons.mp h
      refine List.pairwise_cons.mpr ⟨?_, ih hys⟩
      intro z hz
      have hz3 := (insertSorted_perm (fun a b => decide (a ≤ b)) x ys).mem_iff.mp hz
      rcases List.mem_cons.mp hz3 with rfl | hz2
      · exact hyx
      · exact hy z hz2

theorem sortList_pairwise :
    ∀ l : List Nat, List.Pairwise (fun a b => a ≤ b) (sortList (fun a b => decide (a ≤ b)) l) := by
  intro l
  induction l with
  | nil => exact List.Pairwise.nil
  | cons x xs ih =>
    show List.Pairwise _ (insertSorted (fun a b => decide (a ≤ b)) x (sortList _ xs))
    exact insertSorted_pairwise x _ ih

theorem pairwise_lt_of_le_nodup {l : List Nat}
    (h1 : List.Pairwise (fun a b => a ≤ b) l) (h2 : l.Nodup) :
    List.Pairwise (fun a b => a < b) l := by
  exact (List.Pairwise.and h1 h2).imp (fun h => lt_of_le_of_ne h.1 h.2)

theorem getD_mem_of_lt {l : List Nat} : ∀ {j : Nat}, j < l.length → l.getD j 0 ∈ l := by
  induction l with
  | nil => intro j h; simp at h
  | cons y ys ih =>
    intro j h
    cases j with
    | zero => exact List.mem_cons_self y ys
    | succ k =>
      show ys.getD k 0 ∈ y :: ys
      exact List.mem_cons_of_mem y (ih (by simpa using h))

theorem getD_idxA {l : List Nat} : ∀ {v : Nat}, v ∈ l → l.getD (idxA l v) 0 = v := by
  induction l with
  | nil => intro v h; cases h
  | cons y ys ih =>
    intro v h
    rw [idxA]
    split
    · next he => exact he
    · next hne =>
      have hv : v ∈ ys := by
        rcases List.mem_cons.mp h with rfl | h2
        · exact absurd rfl hne
        · exact h2
      show ys.getD (idxA ys v) 0 = v
      exact ih hv

theorem idxA_getD {l : List Nat} (hnd : l.Nodup) :
    ∀ {j : Nat}, j < l.length → idxA l (l.getD j 0) = j := by
  induction l with
  | nil => intro j h; simp at h
  | cons y ys ih =>
    intro j h
    cases j with
    | zero =>
      show idxA (y :: ys) y = 0
      simp [idxA]
    | succ k =>
      have hk : k < ys.length := by simpa using h
      have hmem : ys.getD k 0 ∈ ys := getD_mem_of_lt hk
      have hne : y ≠ ys.getD k 0 := fun he => (List.nodup_cons.mp hnd).1 (he ▸ hmem)
      show idxA (y :: ys) (ys.getD k 0) = k + 1
      rw [idxA, if_neg hne, ih (List.nodup_cons.mp hnd).2 hk]

theorem idxA_eq_iff {l : List Nat} (hnd : l.Nodup) {v : Nat} (hv : v ∈ l) {j : Nat}
    (hj : j < l.length) : idxA l v = j ↔ v = l.getD j 0 := by
  constructor
  · intro h
    rw [← h]
    exact (getD_idxA hv).symm
  · intro h
    rw [h]
    exact idxA_getD hnd hj

theorem upd2_self (m : Nat → Nat → Nat) (i j v : Nat) : upd2 m i j v i j = v := by
  simp [upd2]

theorem upd2_other {m : Nat → Nat → Nat} {i j v a b : Nat} (h : ¬(a = i ∧ b = j)) :
    upd2 m i j v a b = m a b := by
  simp only [upd2]
  exact if_neg h

theorem fillMsgs_row (sizes : List Nat) (ri : Nat) :
    ∀ (msgs : List CallsiteMessagesSizeEntry) (data : Nat → Nat → Nat) (a b : Nat), a ≠ ri →
      (msgs.foldl
        (fun data m =>
          upd2 data ri (idxA sizes m.size)
            ((data ri (idxA sizes m.size) + (m.tags.map Prod.snd).sum) % M64))
        data) a b = data a b := by
  intro msgs
  induction msgs with
  | nil => intro data a b _; rfl
  | cons m0 rest ih =>
    intro data a b ha
    rw [List.foldl_cons, ih _ a b ha]
    exact upd2_other (fun hc => ha hc.1)

theorem fillMsgs_cell {sizes : List Nat} (hnds : sizes.Nodup) {j : Nat} (hj : j < sizes.length)
    (ri : Nat) :
    ∀ (msgs : List CallsiteMessagesSizeEntry) (data : Nat → Nat → Nat),
      data ri j < M64 → (∀ m ∈ msgs, m.size ∈ sizes) →
      (msgs.foldl
        (fun data m =>
          upd2 data ri (idxA sizes m.size)
            ((data ri (idxA sizes m.size) + (m.tags.map Prod.snd).sum) % M64))
        data) ri j
      = (data ri j +
          ((msgs.filter (fun m => decide (m.size = sizes.getD j 0))).map
            (fun m => (m.tags.map Prod.snd).sum)).sum) % M64 := by
  intro msgs
  induction msgs with
  | nil =>
    intro data hb _
    simp only [List.foldl_nil, List.filter_nil, List.map_nil, List.sum_nil, Nat.add_zero]
    exact (Nat.mod_eq_of_lt hb).symm
  | cons m0 rest ih =>
    intro data hb hmem
    rw [List.foldl_cons]
    by_cases heq : m0.size = sizes.getD j 0
    · have hidx : idxA sizes m0.size = j :=
        (idxA_eq_iff hnds (hmem m0 (List.mem_cons_self m0 rest)) hj).mpr heq
      rw [hidx]
      have hstep : (upd2 data ri j ((data ri j + (m0.tags.map Prod.snd).sum) % M64)) ri j
          = (data ri j + (m0.tags.map Prod.snd).sum) % M64 := upd2_self data ri j _
      rw [ih _ (by rw [hstep]; exact Nat.mod_lt _ (by decide))
          (fun m hm => hmem m (List.mem_cons_of_mem m0 hm)), hstep]
      rw [List.filter_cons,
        if_pos (show decide (m0.size = sizes.getD j 0) = true from decide_eq_true heq),
        List.map_cons, List.sum_cons]
      rw [Nat.mod_add_mod, Nat.add_assoc]
    · have hidx : idxA sizes m0.size ≠ j := fun hc =>
        heq ((idxA_eq_iff hnds (hmem m0 (List.mem_cons_self m0 rest)) hj).mp hc)
      have hstep : (upd2 data ri (idxA sizes m0.size)
          ((data ri (idxA sizes m0.size) + (m0.tags.map Prod.snd).sum) % M64)) ri j
          = data ri j := upd2_other (fun hc => hidx hc.2.symm)
      rw [ih _ (by rw [hstep]; exact hb)
          (fun m hm => hmem m (List.mem_cons_of_mem m0 hm)), hstep]
      rw [List.filter_cons, if_neg (fun hc => heq (of_decide_eq_true hc))]

theorem fillCs_row (sizes : List Nat) (ri : Nat) :
    ∀ (csl : List CallsiteMessageData) (data : Nat → Nat → Nat) (a b : Nat), a ≠ ri →
      (csl.foldl
        (fun data cs =>
          cs.msgs.foldl
            (fun data m =>
              upd2 data ri (idxA sizes m.size)
                ((data ri (idxA sizes m.size) + (m.tags.map Prod.snd).sum) % M64))
            data)
        data) a b = data a b := by
  intro csl
  induction csl with
  | nil => intro data a b _; rfl
  | cons cs0 rest ih =>
    intro data a b ha
    rw [List.foldl_cons, ih _ a b ha]
    exact fillMsgs_row sizes ri cs0.msgs data a b ha

theorem fillCs_cell {sizes : List Nat} (hnds : sizes.Nodup) {j : Nat} (hj : j < sizes.length)
    (ri : Nat) :
    ∀ (csl : List CallsiteMessageData) (data : Nat → Nat → Nat),
      data ri j < M64 → (∀ cs ∈ csl, ∀ m ∈ cs.msgs, m.size ∈ sizes) →
      (csl.foldl
        (fun data cs =>
          cs.msgs.foldl
            (fun data m =>
              upd2 data ri (idxA sizes m.size)
                ((data ri (idxA sizes m.size) + (m.tags.map Prod.snd).sum) % M64))
            data)
        data) ri j
      = (data ri j +
          (csl.map (fun cs =>
            ((cs.msgs.filter (fun m => decide (m.size = sizes.getD j 0))).map
              (fun m => (m.tags.map Prod.snd).sum)).sum)).sum) % M64 := by
  intro csl
  induction csl with
  | nil =>
    intro data hb _
    simp only [List.foldl_nil, List.map_nil, List.sum_nil, Nat.add_zero]
    exact (Nat.mod_eq_of_lt hb).symm
  | cons cs0 rest ih =>
    intro data hb hmem
    rw [List.foldl_cons]
    have hstep := fillMsgs_cell hnds hj ri cs0.msgs data hb
      (fun m hm => hmem cs0 (List.mem_cons_self cs0 rest) m hm)
    rw [ih _ (by rw [hstep]; exact Nat.mod_lt _ (by decide))
        (fun cs hcs m hm => hmem cs (List.mem_cons_of_mem cs0 hcs) m hm), hstep]
    rw [List.map_cons, List.sum_cons, Nat.mod_add_mod, Nat.add_assoc]

theorem fillEntries_cell {peers sizes : List Nat} (comp : String)
    (hndp : peers.Nodup) (hnds : sizes.Nodup)
    {i j : Nat} (hi : i < peers.length) (hj : j < sizes.length) :
    ∀ (entries : List (Nat × RankPeer)) (data : Nat → Nat → Nat),
      data i j < M64 →
      (∀ p ∈ entries, p.1 ∈ peers) →
      (∀ p ∈ entries, ∀ cs ∈ (lookupA p.2.sent_messages comp).getD [], ∀ m ∈ cs.msgs,
        m.size ∈ sizes) →
      (entries.foldl
        (fun data p =>
          (((lookupA p.2.sent_messages comp).getD [])).foldl
            (fun data cs =>
              cs.msgs.foldl
                (fun data m =>
                  upd2 data (idxA peers p.1) (idxA sizes m.size)
                    ((data (idxA peers p.1) (idxA sizes m.size) +
                      (m.tags.map Prod.snd).sum) % M64))
                data)
            data)
        data) i j
      = (data i j +
          ((entries.filter (fun p => decide (p.1 = peers.getD i 0))).map (fun p =>
            (((lookupA p.2.sent_messages comp).getD []).map (fun cs =>
              ((cs.msgs.filter (fun m => decide (m.size = sizes.getD j 0))).map
                (fun m => (m.tags.map Prod.snd).sum)).sum)).sum)).sum) % M64 := by
  intro entries
  induction entries with
  | nil =>
    intro data hb _ _
    simp only [List.foldl_nil, List.filter_nil, List.map_nil, List.sum_nil, Nat.add_zero]
    exact (Nat.mod_eq_of_lt hb).symm
  | cons p0 rest ih =>
    intro data hb hkeys hszs
    rw [List.foldl_cons]
    by_cases hkey : p0.1 = peers.getD i 0
    · have hri : idxA peers p0.1 = i :=
        (idxA_eq_iff hndp (hkeys p0 (List.mem_cons_self p0 rest)) hi).mpr hkey
      rw [hri]
      have hstep := fillCs_cell hnds hj i ((lookupA p0.2.sent_messages comp).getD []) data hb
        (fun cs hcs m hm => hszs p0 (List.mem_cons_self p0 rest) cs hcs m hm)
      rw [ih _ (by rw [hstep]; exact Nat.mod_lt _ (by decide))
          (fun p hp => hkeys p (List.mem_cons_of_mem p0 hp))
          (fun p hp => hszs p (List.mem_cons_of_mem p0 hp)), hstep]
      rw [List.filter_cons,
        if_pos (show decide (p0.1 = peers.getD i 0) = true from decide_eq_true hkey),
        List.map_cons, List.sum_cons]
      rw [Nat.mod_add_mod, Nat.add_assoc]
    · have hri : idxA peers p0.1 ≠ i := fun hc =>
        hkey ((idxA_eq_iff hndp (hkeys p0 (List.mem_cons_self p0 rest)) hi).mp hc)
      have hstep := fillCs_row sizes (idxA peers p0.1)
        ((lookupA p0.2.sent_messages comp).getD []) data i j (fun hc => hri hc.symm)
      rw [ih _ (by rw [hstep]; exact hb)
          (fun p hp => hkeys p (List.mem_cons_of_mem p0 hp))
          (fun p hp => hszs p (List.mem_cons_of_mem p0 hp)), hstep]
      rw [List.filter_cons, if_neg (fun hc => hkey (of_decide_eq_true hc))]

/-- **C9** (amended): for every rank file with duplicate-free peer keys and
every component, on success `SizeData.from_rf` yields `rank` = the file's own
rank, `peers` = ALL peer ids in the file's peers dict (in dict order, NOT
restricted to peers actually communicated with within the component),
`occuring_sizes` = the strictly sorted (hence unique) list of exactly the
sizes sent within the component, and `data[i][j]` = the total tag-occurrence
count of messages of size `occuring_sizes[j]` sent to peer `peers[i]` within
the component, reduced modulo 2^64 (uint64 matrix). -/
theorem c9_sizedata_shape (rf : RankFile) (comp : String) (sd : SizeData)
    (hnd : List.Nodup (rf.peers.map Prod.fst))
    (h : sizeDataFromRf rf comp = .ok sd) :
    sd.rank = rf.general.own_rank ∧
    sd.peers = rf.peers.map Prod.fst ∧
    List.Pairwise (fun a b => a < b) sd.occuring_sizes ∧
    (∀ x, x ∈ sd.occuring_sizes ↔
      ∃ p ∈ rf.peers, ∃ cs ∈ (lookupA p.2.sent_messages comp).getD [],
        ∃ m ∈ cs.msgs, m.size = x) ∧
    (∀ i j, i < sd.peers.length → j < sd.occuring_sizes.length →
      sd.data i j =
        sizeCount rf comp (sd.peers.getD i 0) (sd.occuring_sizes.getD j 0) % M64) := by
  rw [sizeDataFromRf] at h
  split at h
  · cases h
  · injection h with h2
    subst h2
    have hnds : (sortList (fun a b => decide (a ≤ b)) (collectSizes rf comp)).Nodup :=
      (List.Perm.nodup_iff (sortList_perm _ _)).mpr (collectSizes_nodup rf comp)
    refine ⟨rfl, rfl, ?_, ?_, ?_⟩
    · exact pairwise_lt_of_le_nodup (sortList_pairwise (collectSizes rf comp)) hnds
    · intro x
      constructor
      · intro hx
        exact collectSizes_src ((sortList_perm _ _).mem_iff.mp hx)
      · rintro ⟨p, hp, cs, hcs, m, hm, hsz⟩
        exact (sortList_perm _ _).mem_iff.mpr (hsz ▸ mem_collectSizes hp hcs hm)
    · intro i j hi hj
      have hfill := fillEntries_cell comp hnd hnds hi hj rf.peers (fun _ _ => 0)
        (by show (0 : Nat) < M64; decide)
        (fun p hp => List.mem_map_of_mem Prod.fst hp)
        (fun p hp cs hcs m hm =>
          (sortList_perm _ _).mem_iff.mpr (mem_collectSizes hp hcs hm))
      show sizeDataFill (rf.peers.map Prod.fst)
        (sortList (fun a b => decide (a ≤ b)) (collectSizes rf comp)) comp rf.peers i j = _
      rw [sizeDataFill, hfill]
      show (0 + sizeCount rf comp ((rf.peers.map Prod.fst).getD i 0)
        ((sortList (fun a b => decide (a ≤ b)) (collectSizes rf comp)).getD j 0)) % M64 = _
      rw [Nat.zero_add]

/-- C9 counterexample to the literal claim: in `rf9`, peer 2 exchanged no
`"mtl"` traffic at all (its `sent_messages` has no `"mtl"` entry), yet
`SizeData.from_rf(rf9, "mtl")` reports `peers = [1, 2]` — all keys of the
peers dict — not just the peers actually communicated with within the
component. -/
theorem c9_counterexample :
    okSizePeers (sizeDataFromRf rf9 "mtl") = [1, 2] ∧
    lookupA rf9.peers 2 = some peerOb1 ∧
    lookupA peerOb1.sent_messages "mtl" = none :=
  ⟨rfl, rfl, rfl⟩

/-- C9 witness: the §8 rank-0 file with component `"mtl"` satisfies the
amended theorem's hypotheses, and the resulting SizeData has
`occuring_sizes = [64, 128]`, `peers = [1]`, `data = [[3, 2]]`, with the
cells given by the tag-occurrence counts. -/
theorem c9_witness :
    List.Nodup (rf8_0.peers.map Prod.fst) ∧
    ∃ sd, sizeDataFromRf rf8_0 "mtl" = .ok sd ∧
      sd.rank = 0 ∧ sd.peers = [1] ∧ sd.occuring_sizes = [64, 128] ∧
      List.Pairwise (fun a b => a < b) sd.occuring_sizes ∧
      sd.data 0 0 = 3 ∧ sd.data 0 1 = 2 ∧
      sd.data 0 0 = sizeCount rf8_0 "mtl" 1 64 % M64 ∧
      sd.data 0 1 = sizeCount rf8_0 "mtl" 1 128 % M64 := by
  have hnd : List.Nodup (rf8_0.peers.map Prod.fst) := by decide
  have h : sizeDataFromRf rf8_0 "mtl" =
      .ok ⟨0, [64, 128], [1], sizeDataFill [1] [64, 128] "mtl" rf8_0.peers⟩ := rfl
  have hmain := c9_sizedata_shape rf8_0 "mtl" _ hnd h
  exact ⟨hnd, _, h, hmain.1, hmain.2.1, rfl, hmain.2.2.1, by decide, by decide,
    hmain.2.2.2.2 0 0 (by decide) (by decide), hmain.2.2.2.2 0 1 (by decide) (by decide)⟩
